import Mathlib

/-! The rule-tag validation engine of `main.go` (struct_tags).

A shallow embedding of `validate`, `applyRule` and the four checkers, together
with the parts of the Go standard library they call (`strings.Split`,
`strings.HasPrefix`, `strings.TrimPrefix`, `strconv.Atoi`, `fmt` verbs `%s` and
`%d`, and `regexp` matching of the e-mail pattern).

Go strings are byte sequences and `len` counts bytes, so a Go string is a list
of bytes here.  `int` is the 64-bit `int` of amd64/arm64.
-/

namespace StructTags

/-! ## Go strings -/

/-- One byte of a Go string. -/
abbrev Byte := Fin 256

/-- A Go `string`: an immutable sequence of bytes. -/
abbrev GoString := List Byte

/-- UTF-8 encoding of one code point, as the Go compiler stores the characters of
a string literal. -/
def utf8EncodeChar (c : Char) : List Byte :=
  let n := c.toNat
  if n < 0x80 then [Fin.ofNat n]
  else if n < 0x800 then [Fin.ofNat (0xC0 + n / 64), Fin.ofNat (0x80 + n % 64)]
  else if n < 0x10000 then
    [Fin.ofNat (0xE0 + n / 4096), Fin.ofNat (0x80 + n / 64 % 64), Fin.ofNat (0x80 + n % 64)]
  else
    [Fin.ofNat (0xF0 + n / 262144), Fin.ofNat (0x80 + n / 4096 % 64),
     Fin.ofNat (0x80 + n / 64 % 64), Fin.ofNat (0x80 + n % 64)]

/-- The bytes of a string literal of the source. -/
def utf8 (s : String) : GoString := s.data.flatMap utf8EncodeChar

/-- Go `len(s)` for a string: the number of bytes, as an `int`. -/
def len (s : GoString) : Int := (s.length : Int)

/-- Go `strings.HasPrefix`: `len(s) >= len(prefix) && s[:len(prefix)] == prefix`. -/
def HasPrefix (s pre : GoString) : Bool :=
  decide (pre.length ≤ s.length) && decide (s.take pre.length = pre)

/-- Go `strings.TrimPrefix`: `s` without the leading `prefix`, or `s` itself. -/
def TrimPrefix (s pre : GoString) : GoString :=
  if HasPrefix s pre then s.drop pre.length else s

/-- Go `strings.Split(s, sep)` for a one-byte separator: the pieces of `s` between
the occurrences of `sep`, empty pieces included; `Split("", sep)` is `[""]`. -/
def splitByte (sep : Byte) : GoString → List GoString
  | [] => [[]]
  | c :: cs =>
    if c = sep then [] :: splitByte sep cs
    else
      match splitByte sep cs with
      | [] => [[c]]
      | t :: ts => (c :: t) :: ts

/-- The call `strings.Split(tag, ",")` of `validate`. -/
def Split (s : GoString) : List GoString := splitByte 44 s

/-! ## strconv.Atoi (64-bit `int`) -/

/-- The two sentinel errors of `strconv`. -/
inductive NumError
  | ErrSyntax
  | ErrRange
  deriving DecidableEq, Repr

/-- Size of `int` in bits. -/
def intSize : Nat := 64

/-- Largest `uint64`. -/
def maxUint64 : Nat := 2 ^ 64 - 1

/-- Go `lower(c)` of `strconv`: `c | ('x' - 'X')`. -/
def lower (c : Byte) : Byte := Fin.ofNat (c.val ||| 0x20)

/-- The digit loop of `strconv.ParseUint(s, 10, 64)` over the remaining bytes, with
the accumulator `n` a `uint64`. -/
def parseUintLoop : Nat → List Byte → Nat × Option NumError
  | n, [] => (n, none)
  | n, c :: cs =>
    let cutoff := maxUint64 / 10 + 1
    let maxVal := 2 ^ intSize - 1
    let dOpt : Option Nat :=
      if 48 ≤ c.val ∧ c.val ≤ 57 then some (c.val - 48)
      else if 97 ≤ (lower c).val ∧ (lower c).val ≤ 122 then some ((lower c).val - 97 + 10)
      else none
    match dOpt with
    | none => (0, some .ErrSyntax)
    | some d =>
      if d ≥ 10 then (0, some .ErrSyntax)
      else if n ≥ cutoff then (maxVal, some .ErrRange)
      else
        let n10 := (n * 10) % 2 ^ 64
        let n1 := (n10 + d) % 2 ^ 64
        if n1 < n10 ∨ n1 > maxVal then (maxVal, some .ErrRange)
        else parseUintLoop n1 cs

/-- Go `strconv.ParseUint(s, 10, 0)`. -/
def ParseUint (s : GoString) : Nat × Option NumError :=
  if s = [] then (0, some .ErrSyntax) else parseUintLoop 0 s

/-- Conversion `int64(un)` of a `uint64`. -/
def toInt64 (un : Nat) : Int :=
  if un % 2 ^ 64 < 2 ^ 63 then ((un % 2 ^ 64 : Nat) : Int) else ((un % 2 ^ 64 : Nat) : Int) - 2 ^ 64

/-- Negation of an `int64`, wrapping. -/
def negInt64 (n : Int) : Int := toInt64 ((-n) % 2 ^ 64).toNat

/-- Go `strconv.ParseInt(s, 10, 0)`. -/
def ParseInt (s : GoString) : Int × Option NumError :=
  match s with
  | [] => (0, some .ErrSyntax)
  | c :: cs =>
    let neg := decide (c = 45)
    let s1 := if c = 43 then cs else if c = 45 then cs else s
    let (un, err) := ParseUint s1
    if err = some .ErrSyntax then (0, err)
    else
      let cutoff : Nat := 2 ^ (intSize - 1)
      if !neg && decide (un ≥ cutoff) then (((cutoff - 1 : Nat) : Int), some .ErrRange)
      else if neg && decide (un > cutoff) then (-((cutoff : Nat) : Int), some .ErrRange)
      else
        let n := toInt64 un
        (if neg then negInt64 n else n, none)

/-- The digit loop of the fast path of `strconv.Atoi`: `ch -= '0'` on a byte, then
`n = n*10 + int(ch)`; `none` is the syntax error. -/
def atoiFastLoop : Int → List Byte → Option Int
  | n, [] => some n
  | n, ch :: rest =>
    let ch1 := (ch.val + 256 - 48) % 256
    if ch1 > 9 then none else atoiFastLoop (n * 10 + (ch1 : Int)) rest

/-- Go `strconv.Atoi(s)`: the value and the error.  Strings of 1 to 18 bytes take
the fast path (an optional sign, then `atoiFastLoop`); the others go to
`ParseInt`.  The test `len(s) < 1` of the source sits in the sign branch; without
a sign the string is not empty, so it is evaluated in both. -/
def Atoi (s : GoString) : Int × Option NumError :=
  match s with
  | [] => ParseInt s
  | c :: cs =>
    if s.length < 19 then
      let s1 := if c = 45 ∨ c = 43 then cs else s
      if s1.length < 1 then (0, some .ErrSyntax)
      else
        match atoiFastLoop 0 s1 with
        | none => (0, some .ErrSyntax)
        | some n => (if c = 45 then -n else n, none)
    else ParseInt s

/-! ## fmt -/

/-- Decimal digits of a natural number, most significant first (the `%d` loop of
`fmt`: repeated division by ten), with `fuel` bounding the number of digits. -/
def natDigits : Nat → Nat → List Byte → List Byte
  | 0, _, acc => acc
  | fuel + 1, n, acc =>
    let acc1 := (Fin.ofNat (48 + n % 10) : Byte) :: acc
    if n / 10 = 0 then acc1 else natDigits fuel (n / 10) acc1

/-- The verb `%d` of `fmt` for an `int`. -/
def fmtInt (i : Int) : GoString :=
  if i < 0 then (45 : Byte) :: natDigits (i.natAbs + 1) i.natAbs []
  else natDigits (i.natAbs + 1) i.natAbs []

/-! ## The program -/

/-- A Go `error`: `nil` is `none`, otherwise the message of the error. -/
abbrev Error := Option GoString

/-- `fmt.Errorf("%s must be at least %d characters long", fieldName, min)`. -/
def errMin (fieldName : GoString) (min : Int) : GoString :=
  fieldName ++ utf8 " must be at least " ++ fmtInt min ++ utf8 " characters long"

/-- `fmt.Errorf("%s must be at most %d characters long", fieldName, max)`. -/
def errMax (fieldName : GoString) (max : Int) : GoString :=
  fieldName ++ utf8 " must be at most " ++ fmtInt max ++ utf8 " characters long"

/-- `fmt.Errorf("%s is required", fieldName)`. -/
def errRequired (fieldName : GoString) : GoString :=
  fieldName ++ utf8 " is required"

/-- `fmt.Errorf("%s must be a valid email address", fieldName)`. -/
def errEmail (fieldName : GoString) : GoString :=
  fieldName ++ utf8 " must be a valid email address"

/-- Source `validateMinLength`; `field` is `field.String()`. -/
def validateMinLength (rule field fieldName : GoString) : Error :=
  let min := (Atoi (TrimPrefix rule (utf8 "min="))).1
  if len field < min then some (errMin fieldName min) else none

/-- Source `validateMaxLength`. -/
def validateMaxLength (rule field fieldName : GoString) : Error :=
  let max := (Atoi (TrimPrefix rule (utf8 "max="))).1
  if len field > max then some (errMax fieldName max) else none

/-- Source `validateRequired`. -/
def validateRequired (field fieldName : GoString) : Error :=
  if field = [] then some (errRequired fieldName) else none

/-! ## regexp -/

/-- Regular expressions over bytes: the fragment of Go `regexp/syntax` that the
e-mail pattern uses after simplification (character classes as lists of inclusive
ranges, concatenation, alternation with the empty match, star). -/
inductive Regex
  | nothing
  | eps
  | cls (ranges : List (Char × Char))
  | cat (r s : Regex)
  | alt (r s : Regex)
  | star (r : Regex)

namespace Regex

/-- A byte belongs to a class when one of the ranges contains it. -/
def inClass (ranges : List (Char × Char)) (c : Byte) : Bool :=
  ranges.any fun p => decide (p.1.toNat ≤ c.val) && decide (c.val ≤ p.2.toNat)

/-- A literal byte `c`. -/
def lit (c : Char) : Regex := cls [(c, c)]

/-- The operator `x+`, that is `xx*`. -/
def plus (r : Regex) : Regex := cat r (star r)

/-- The operator `x?`. -/
def opt (r : Regex) : Regex := alt r eps

/-- The repetition `x{2,4}`, which `regexp/syntax` simplifies to `xx(x(x)?)?`. -/
def rep24 (r : Regex) : Regex := cat r (cat r (opt (cat r (opt r))))

/-- Whether the expression matches the empty string. -/
def nullable : Regex → Bool
  | nothing => false
  | eps => true
  | cls _ => false
  | cat r s => nullable r && nullable s
  | alt r s => nullable r || nullable s
  | star _ => true

/-- Derivative of an expression by one byte: what remains to be matched after
reading `c`. -/
def deriv (c : Byte) : Regex → Regex
  | nothing => nothing
  | eps => nothing
  | cls rs => if inClass rs c then eps else nothing
  | cat r s => if nullable r then alt (cat (deriv c r) s) (deriv c s) else cat (deriv c r) s
  | alt r s => alt (deriv c r) (deriv c s)
  | star r => cat (deriv c r) (star r)

/-- Whether the whole of `s` matches `r`. -/
def fullMatch (r : Regex) (s : GoString) : Bool :=
  nullable (s.foldl (fun q c => deriv c q) r)

end Regex

/-- The pattern of `validateEmail` between its anchors:
`[a-z0-9._%+\-]+@[a-z0-9.\-]+\.[a-z]{2,4}`. -/
def emailRegex : Regex :=
  .cat (.plus (.cls [('a', 'z'), ('0', '9'), ('.', '.'), ('_', '_'), ('%', '%'), ('+', '+'),
    ('-', '-')]))
  (.cat (.lit '@')
  (.cat (.plus (.cls [('a', 'z'), ('0', '9'), ('.', '.'), ('-', '-')]))
  (.cat (.lit '.')
  (.rep24 (.cls [('a', 'z')])))))

/-- Go `emailRegex.MatchString(s)`: the pattern begins with `^` and ends with `$`
(no flags, so they stand for the beginning and the end of the text), hence a match
anywhere in `s` is a match of the whole of `s`.  Every class of the pattern holds
ASCII characters only, so matching by runes and matching by bytes agree. -/
def MatchString (s : GoString) : Bool := emailRegex.fullMatch s

/-- Source `validateEmail`. -/
def validateEmail (field fieldName : GoString) : Error :=
  if !MatchString field then some (errEmail fieldName) else none

/-- Source `applyRule`: the `switch` tries its cases in order. -/
def applyRule (rule field fieldName : GoString) : Error :=
  if HasPrefix rule (utf8 "min=") then validateMinLength rule field fieldName
  else if HasPrefix rule (utf8 "max=") then validateMaxLength rule field fieldName
  else if rule = utf8 "required" then validateRequired field fieldName
  else if rule = utf8 "email" then validateEmail field fieldName
  else none

/-- One field of the record as `validate` reads it through `reflect`: the name
`v.Type().Field(i).Name`, the text `v.Field(i).String()` of a field of kind string
and the tag `v.Type().Field(i).Tag.Get("validate")`, empty when the field has
none. -/
structure Field where
  name : GoString
  value : GoString
  tag : GoString
  deriving DecidableEq

/-- The inner loop of `validate`: `for _, rule := range rules`, returning the first
error. -/
def applyRules : List GoString → GoString → GoString → Error
  | [], _, _ => none
  | rule :: rest, field, fieldName =>
    match applyRule rule field fieldName with
    | some err => some err
    | none => applyRules rest field fieldName

/-- Source `validate`, on the fields of the record in declaration order. -/
def validate : List Field → Error
  | [] => none
  | f :: rest =>
    if f.tag = [] then validate rest
    else
      match applyRules (Split f.tag) f.value f.name with
      | some err => some err
      | none => validate rest

/-- The struct `User` of the source, as the record `validate` sees. -/
def User (Name Email : GoString) : List Field :=
  [⟨utf8 "Name", Name, utf8 "min=2,max=32"⟩, ⟨utf8 "Email", Email, utf8 "required,email"⟩]

/-! ## Vocabulary of the statements -/

/-- Every token of the tag of `f` passes on the value of `f`; a field without a
tag has no token. -/
def fieldPasses (f : Field) : Prop :=
  f.tag ≠ [] → ∀ t ∈ Split f.tag, applyRule t f.value f.name = none

/-- A byte that is an ASCII decimal digit. -/
def isDigit (c : Byte) : Prop := 48 ≤ c.val ∧ c.val ≤ 57

/-- The number that a string of decimal digits denotes after the digits already
read denote `a`. -/
def valAcc (a : Nat) (s : List Byte) : Nat := s.foldl (fun x c => x * 10 + (c.val - 48)) a

/-- The strings an expression denotes (the usual semantics of regular
expressions), against which the derivative matcher is checked. -/
def Regex.lang : Regex → GoString → Prop
  | .nothing, _ => False
  | .eps, s => s = []
  | .cls rs, s => ∃ c, s = [c] ∧ Regex.inClass rs c = true
  | .cat r q, s => ∃ s1 s2, s = s1 ++ s2 ∧ Regex.lang r s1 ∧ Regex.lang q s2
  | .alt r q, s => Regex.lang r s ∨ Regex.lang q s
  | .star r, s => ∃ L : List GoString, s = L.flatten ∧ ∀ x ∈ L, Regex.lang r x

/-- A byte among `a-z`. -/
def isLowerAlpha (c : Byte) : Prop := 97 ≤ c.val ∧ c.val ≤ 122

/-- A byte among `a-z`, `0-9`, `.`, `_`, `%`, `+`, `-`: the characters of the local
part in the reference pattern. -/
def isLocalChar (c : Byte) : Prop :=
  isLowerAlpha c ∨ isDigit c ∨ c = 46 ∨ c = 95 ∨ c = 37 ∨ c = 43 ∨ c = 45

/-- A byte among `a-z`, `0-9`, `.`, `-`: the characters of the domain in the
reference pattern. -/
def isDomainChar (c : Byte) : Prop :=
  isLowerAlpha c ∨ isDigit c ∨ c = 46 ∨ c = 45

/-- The reference shape of an e-mail address, in the words of the specification:
`local ++ "@" ++ domain ++ "." ++ tld` with a non-empty local part over
`[a-z0-9._%+-]`, a non-empty domain over `[a-z0-9.-]` and a top-level domain of
2 to 4 letters `a-z`, and nothing before or after. -/
def emailShape (v : GoString) : Prop :=
  ∃ loc domain tld : GoString,
    v = loc ++ utf8 "@" ++ domain ++ utf8 "." ++ tld ∧
    loc ≠ [] ∧ (∀ c ∈ loc, isLocalChar c) ∧
    domain ≠ [] ∧ (∀ c ∈ domain, isDomainChar c) ∧
    (tld.length = 2 ∨ tld.length = 3 ∨ tld.length = 4) ∧ (∀ c ∈ tld, isLowerAlpha c)

/-- An ASCII capital letter `A-Z`. -/
def isUpperAlpha (c : Byte) : Prop := 65 ≤ c.val ∧ c.val ≤ 90

/-- The text that `strconv.Atoi` parses as digits: `s` without one leading `+` or
`-`. -/
def stripSign : GoString → GoString
  | [] => []
  | c :: cs => if c = 43 ∨ c = 45 then cs else c :: cs

/-- A suffix that is not a number: after the optional sign it is empty, or it has
a byte that is not a decimal digit, preceded by digits only, and these digits do
not overflow a `uint64` (so the parser reaches that byte). -/
def syntaxErrorSuffix (s : GoString) : Prop :=
  stripSign s = [] ∨
    ∃ ds c rest, stripSign s = ds ++ c :: rest ∧ (∀ d ∈ ds, isDigit d) ∧ ¬ isDigit c ∧
      valAcc 0 ds < 2 ^ 64

/-- The `int` nearest to the integer `k`: `k` itself when it fits 64 bits, else
the smallest or the largest `int`. -/
def clampInt (k : Int) : Int := max (-(2 ^ 63)) (min k (2 ^ 63 - 1))

/-- The threshold of `validateMinLength` for the token `rule`: the value of
`strconv.Atoi` on the text after `min=`, its error dropped. -/
def minThreshold (rule : GoString) : Int := (Atoi (TrimPrefix rule (utf8 "min="))).1

/-- The threshold of `validateMaxLength` for the token `rule`. -/
def maxThreshold (rule : GoString) : Int := (Atoi (TrimPrefix rule (utf8 "max="))).1

/-- A token the `switch` of `applyRule` does not know: it starts neither with
`min=` nor with `max=` and is neither `required` nor `email`. -/
def isUnknownToken (u : GoString) : Prop :=
  HasPrefix u (utf8 "min=") = false ∧ HasPrefix u (utf8 "max=") = false ∧
    u ≠ utf8 "required" ∧ u ≠ utf8 "email"

/-- The tokens joined again with `,` between them (Go `strings.Join(tokens, ",")`). -/
def joinComma : List GoString → GoString
  | [] => []
  | [t] => t
  | t :: u :: rest => t ++ 44 :: joinComma (u :: rest)

/-! # Theorems -/

/-! ## The scan of `validate` -/

theorem applyRules_eq_none_iff (rules : List GoString) (v n : GoString) :
    applyRules rules v n = none ↔ ∀ t ∈ rules, applyRule t v n = none := by
  induction rules with
  | nil => simp [applyRules]
  | cons r rs ih =>
    cases h : applyRule r v n with
    | none => simp [applyRules, h, ih]
    | some e => simp [applyRules, h]

theorem applyRules_eq_some_iff (rules : List GoString) (v n e : GoString) :
    applyRules rules v n = some e ↔
      ∃ tpre t tpost, rules = tpre ++ t :: tpost ∧
        (∀ u ∈ tpre, applyRule u v n = none) ∧ applyRule t v n = some e := by
  induction rules with
  | nil => simp [applyRules]
  | cons r rs ih =>
    cases h : applyRule r v n with
    | none =>
      simp only [applyRules, h, ih]
      constructor
      · rintro ⟨tpre, t, tpost, rfl, hpre, ht⟩
        exact ⟨r :: tpre, t, tpost, rfl, by simpa [h] using hpre, ht⟩
      · rintro ⟨tpre, t, tpost, heq, hpre, ht⟩
        cases tpre with
        | nil =>
          simp only [List.nil_append, List.cons.injEq] at heq
          rw [← heq.1, h] at ht
          cases ht
        | cons a tpre =>
          simp only [List.cons_append, List.cons.injEq] at heq
          exact ⟨tpre, t, tpost, heq.2, fun u hu => hpre u (List.mem_cons_of_mem _ hu), ht⟩
    | some e1 =>
      simp only [applyRules, h, Option.some.injEq]
      constructor
      · rintro rfl
        exact ⟨[], r, rs, rfl, by simp, h⟩
      · rintro ⟨tpre, t, tpost, heq, hpre, ht⟩
        cases tpre with
        | nil =>
          simp only [List.nil_append, List.cons.injEq] at heq
          rw [← heq.1, h] at ht
          exact Option.some.inj ht
        | cons a tpre =>
          simp only [List.cons_append, List.cons.injEq] at heq
          have := hpre a (List.mem_cons_self _ _)
          rw [← heq.1, h] at this
          cases this

theorem validate_cons_of_passes (f : Field) (rest : List Field) (hf : fieldPasses f) :
    validate (f :: rest) = validate rest := by
  by_cases ht : f.tag = []
  · simp [validate, ht]
  · have := (applyRules_eq_none_iff (Split f.tag) f.value f.name).2 (hf ht)
    simp [validate, ht, this]

theorem validate_cons_of_fails (f : Field) (rest : List Field) (e : GoString)
    (ht : f.tag ≠ []) (hf : applyRules (Split f.tag) f.value f.name = some e) :
    validate (f :: rest) = some e := by
  simp [validate, ht, hf]

theorem validate_eq_none_iff (fields : List Field) :
    validate fields = none ↔ ∀ f ∈ fields, fieldPasses f := by
  induction fields with
  | nil => simp [validate]
  | cons f rest ih =>
    by_cases hf : fieldPasses f
    · rw [validate_cons_of_passes f rest hf, ih]
      simp [hf]
    · have ht : f.tag ≠ [] := fun h => hf (fun h1 => absurd h h1)
      have hne : applyRules (Split f.tag) f.value f.name ≠ none := fun h =>
        hf (fun _ => (applyRules_eq_none_iff _ _ _).1 h)
      obtain ⟨e, he⟩ := Option.ne_none_iff_exists'.1 hne
      rw [validate_cons_of_fails f rest e ht he]
      simp [hf]

theorem validate_eq_some_iff (fields : List Field) (e : GoString) :
    validate fields = some e ↔
      ∃ pre f post tpre t tpost, fields = pre ++ f :: post ∧ f.tag ≠ [] ∧
        Split f.tag = tpre ++ t :: tpost ∧ (∀ g ∈ pre, fieldPasses g) ∧
        (∀ u ∈ tpre, applyRule u f.value f.name = none) ∧
        applyRule t f.value f.name = some e := by
  induction fields with
  | nil => simp [validate]
  | cons f rest ih =>
    by_cases hf : fieldPasses f
    · rw [validate_cons_of_passes f rest hf, ih]
      constructor
      · rintro ⟨pre, g, post, tpre, t, tpost, rfl, h⟩
        obtain ⟨h1, h2, h3, h4⟩ := h
        refine ⟨f :: pre, g, post, tpre, t, tpost, rfl, h1, h2, ?_, h4⟩
        intro x hx
        rcases List.mem_cons.1 hx with rfl | hx
        · exact hf
        · exact h3 x hx
      · rintro ⟨pre, g, post, tpre, t, tpost, heq, h1, h2, h3, h4, h5⟩
        cases pre with
        | nil =>
          simp only [List.nil_append, List.cons.injEq] at heq
          obtain ⟨rfl, -⟩ := heq
          have := hf h1 t (by rw [h2]; simp)
          rw [this] at h5
          cases h5
        | cons a pre =>
          simp only [List.cons_append, List.cons.injEq] at heq
          exact ⟨pre, g, post, tpre, t, tpost, heq.2, h1, h2,
            fun x hx => h3 x (List.mem_cons_of_mem _ hx), h4, h5⟩
    · have ht : f.tag ≠ [] := fun h => hf (fun h1 => absurd h h1)
      have hne : applyRules (Split f.tag) f.value f.name ≠ none := fun h =>
        hf (fun _ => (applyRules_eq_none_iff _ _ _).1 h)
      obtain ⟨e1, he1⟩ := Option.ne_none_iff_exists'.1 hne
      rw [validate_cons_of_fails f rest e1 ht he1]
      constructor
      · intro h
        rw [h] at he1
        obtain ⟨tpre, t, tpost, h2, h4, h5⟩ := (applyRules_eq_some_iff _ _ _ _).1 he1
        exact ⟨[], f, rest, tpre, t, tpost, rfl, ht, h2, by simp, h4, h5⟩
      · rintro ⟨pre, g, post, tpre, t, tpost, heq, h1, h2, h3, h4, h5⟩
        cases pre with
        | nil =>
          simp only [List.nil_append, List.cons.injEq] at heq
          obtain ⟨rfl, -⟩ := heq
          have := (applyRules_eq_some_iff _ _ _ _).2 ⟨tpre, t, tpost, h2, h4, h5⟩
          rw [he1] at this
          exact this
        | cons a pre =>
          simp only [List.cons_append, List.cons.injEq] at heq
          obtain ⟨rfl, -⟩ := heq
          exact absurd (h3 _ (List.mem_cons_self _ _)) hf

/-- C1: `validate` returns no error exactly when every token of every tagged field
passes its checker, and it returns the error `e` exactly when `e` is the error of
the first failing (field, token) pair: the fields before it all pass, the tokens
before it in the same tag pass, and whatever fields and tokens come after it are
arbitrary. -/
theorem validate_first_failure_wins (fields : List Field) :
    (validate fields = none ↔
      ∀ f ∈ fields, f.tag ≠ [] → ∀ t ∈ Split f.tag, applyRule t f.value f.name = none) ∧
    (∀ e : GoString, validate fields = some e ↔
      ∃ pre f post tpre t tpost, fields = pre ++ f :: post ∧ f.tag ≠ [] ∧
        Split f.tag = tpre ++ t :: tpost ∧
        (∀ g ∈ pre, g.tag ≠ [] → ∀ u ∈ Split g.tag, applyRule u g.value g.name = none) ∧
        (∀ u ∈ tpre, applyRule u f.value f.name = none) ∧
        applyRule t f.value f.name = some e) :=
  ⟨validate_eq_none_iff fields, fun e => validate_eq_some_iff fields e⟩

/-! ## Dispatch on literal tokens -/

theorem applyRule_required (v n : GoString) :
    applyRule (utf8 "required") v n = validateRequired v n := by
  have h1 : HasPrefix (utf8 "required") (utf8 "min=") = false := by decide
  have h2 : HasPrefix (utf8 "required") (utf8 "max=") = false := by decide
  simp [applyRule, h1, h2]

theorem applyRule_email (v n : GoString) :
    applyRule (utf8 "email") v n = validateEmail v n := by
  have h1 : HasPrefix (utf8 "email") (utf8 "min=") = false := by decide
  have h2 : HasPrefix (utf8 "email") (utf8 "max=") = false := by decide
  have h3 : utf8 "email" ≠ utf8 "required" := by decide
  simp [applyRule, h1, h2, h3]

theorem validate_single (n v tag : GoString) (ht : tag ≠ []) :
    validate [⟨n, v, tag⟩] = applyRules (Split tag) v n := by
  simp only [validate, ht, if_false]
  cases applyRules (Split tag) v n <;> rfl

/-- C2: on the schema `User`, the first sample record is valid and the second is
rejected with the message of the field `Name` ("Name must be at least 2 characters
long"), not with a message about `Email`. -/
theorem validate_User_samples :
    validate (User (utf8 "Alice") (utf8 "alice@example.com")) = none ∧
    validate (User (utf8 "A") (utf8 "aliceexample.com")) =
      some (utf8 "Name must be at least 2 characters long") := by
  constructor <;> decide

/-- C3: a record none of whose fields has a rule tag is valid, whatever the names
and values; and a field with an empty tag can be removed from any record without
changing the result of `validate`, whatever its name and value. -/
theorem validate_untagged :
    (∀ fields : List Field, (∀ f ∈ fields, f.tag = []) → validate fields = none) ∧
    (∀ (pre post : List Field) (name value : GoString),
      validate (pre ++ ⟨name, value, []⟩ :: post) = validate (pre ++ post)) := by
  constructor
  · intro fields h
    exact (validate_eq_none_iff fields).2 fun f hf ht => absurd (h f hf) ht
  · intro pre post name value
    induction pre with
    | nil => simp [validate]
    | cons g pre ih => rw [List.cons_append, List.cons_append, validate, validate, ih]

theorem validate_untagged_witness :
    validate [⟨utf8 "Name", utf8 "A", []⟩, ⟨utf8 "Email", utf8 "x", []⟩] = none :=
  validate_untagged.1 _ (by decide)

/-- C4: a field tagged `required` fails exactly when its value is the empty
string, with the message `<name> is required`; every non-empty value passes, a
value made of spaces only included. -/
theorem validate_required (name v : GoString) :
    (validate [⟨name, v, utf8 "required"⟩] = none ↔ v ≠ []) ∧
    (validate [⟨name, v, utf8 "required"⟩] = some (name ++ utf8 " is required") ↔ v = []) ∧
    (∀ e, validate [⟨name, v, utf8 "required"⟩] = some e → e = name ++ utf8 " is required") ∧
    (∀ k : Nat, validate [⟨name, List.replicate (k + 1) 32, utf8 "required"⟩] = none) := by
  have hs : Split (utf8 "required") = [utf8 "required"] := by decide
  have hv : ∀ w : GoString, validate [⟨name, w, utf8 "required"⟩] =
      if w = [] then some (name ++ utf8 " is required") else none := by
    intro w
    rw [validate_single _ _ _ (by decide), hs]
    by_cases h : w = [] <;> simp [applyRules, applyRule_required, validateRequired, errRequired, h]
  refine ⟨?_, ?_, ?_, ?_⟩
  · rw [hv]; by_cases h : v = [] <;> simp [h]
  · rw [hv]; by_cases h : v = [] <;> simp [h]
  · intro e; rw [hv]; by_cases h : v = [] <;> simp [h]; exact fun h => h.symm
  · intro k; rw [hv]; simp [List.replicate_succ]

/-- C5: for one field tagged `min=2,max=32`, the min-length message is returned
exactly when `len(v) < 2`, the max-length message exactly when `len(v) > 32`, no
error exactly when `2 <= len(v) <= 32`, and the two messages are different. -/
theorem validate_min2_max32 (name v : GoString) :
    (validate [⟨name, v, utf8 "min=2,max=32"⟩] =
        some (name ++ utf8 " must be at least 2 characters long") ↔ len v < 2) ∧
    (validate [⟨name, v, utf8 "min=2,max=32"⟩] =
        some (name ++ utf8 " must be at most 32 characters long") ↔ len v > 32) ∧
    (validate [⟨name, v, utf8 "min=2,max=32"⟩] = none ↔ 2 ≤ len v ∧ len v ≤ 32) ∧
    name ++ utf8 " must be at least 2 characters long" ≠
      name ++ utf8 " must be at most 32 characters long" := by
  have hs : Split (utf8 "min=2,max=32") = [utf8 "min=2", utf8 "max=32"] := by decide
  have hmin : applyRule (utf8 "min=2") v name =
      if len v < 2 then some (name ++ utf8 " must be at least 2 characters long") else none := by
    have h1 : HasPrefix (utf8 "min=2") (utf8 "min=") = true := by decide
    have h2 : (Atoi (TrimPrefix (utf8 "min=2") (utf8 "min="))).1 = 2 := by decide
    have h3 : utf8 " must be at least " ++ fmtInt 2 ++ utf8 " characters long" =
        utf8 " must be at least 2 characters long" := by decide
    simp only [applyRule, h1, if_true, validateMinLength, h2, errMin, List.append_assoc]
    rw [← h3, List.append_assoc]
  have hmax : applyRule (utf8 "max=32") v name =
      if len v > 32 then some (name ++ utf8 " must be at most 32 characters long") else none := by
    have h0 : HasPrefix (utf8 "max=32") (utf8 "min=") = false := by decide
    have h1 : HasPrefix (utf8 "max=32") (utf8 "max=") = true := by decide
    have h2 : (Atoi (TrimPrefix (utf8 "max=32") (utf8 "max="))).1 = 32 := by decide
    have h3 : utf8 " must be at most " ++ fmtInt 32 ++ utf8 " characters long" =
        utf8 " must be at most 32 characters long" := by decide
    simp only [applyRule, h0, h1, if_true, validateMaxLength, h2, errMax, List.append_assoc]
    rw [← h3, List.append_assoc]
    simp
  have hne0 : utf8 " must be at least 2 characters long" ≠
      utf8 " must be at most 32 characters long" := by decide
  have hne : name ++ utf8 " must be at least 2 characters long" ≠
      name ++ utf8 " must be at most 32 characters long" :=
    fun h => hne0 (List.append_cancel_left h)
  have hv : validate [⟨name, v, utf8 "min=2,max=32"⟩] =
      if len v < 2 then some (name ++ utf8 " must be at least 2 characters long")
      else if len v > 32 then some (name ++ utf8 " must be at most 32 characters long")
      else none := by
    rw [validate_single _ _ _ (by decide), hs]
    simp only [applyRules, hmin, hmax]
    by_cases h1 : len v < 2
    · simp [h1]
    · by_cases h2 : len v > 32 <;> simp [h1, h2]
  refine ⟨?_, ?_, ?_, hne⟩
  · rw [hv]
    by_cases h1 : len v < 2
    · simp [h1]
    · by_cases h2 : len v > 32
      · simp [h1, h2]; exact fun h => hne0 h.symm
      · simp [h1, h2]
  · rw [hv]
    by_cases h1 : len v < 2
    · simp [h1]; constructor
      · intro h; exact absurd h hne0
      · intro h; omega
    · by_cases h2 : len v > 32 <;> simp [h1, h2]
  · rw [hv]
    by_cases h1 : len v < 2
    · simp [h1]
    · by_cases h2 : len v > 32
      · simp [h1, h2]
      · simp [h1, h2]; omega

/-! ## Decimal literals: `strconv.Atoi` after `fmt` -/

theorem utf8_min : utf8 "min=" = [109, 105, 110, 61] := by decide

theorem utf8_max : utf8 "max=" = [109, 97, 120, 61] := by decide

theorem HasPrefix_append (p s : GoString) : HasPrefix (p ++ s) p = true := by
  simp [HasPrefix]

theorem TrimPrefix_append (p s : GoString) : TrimPrefix (p ++ s) p = s := by
  simp [TrimPrefix, HasPrefix_append]

theorem applyRule_min (s v n : GoString) :
    applyRule (utf8 "min=" ++ s) v n = validateMinLength (utf8 "min=" ++ s) v n := by
  simp [applyRule, HasPrefix_append]

theorem applyRule_max (s v n : GoString) :
    applyRule (utf8 "max=" ++ s) v n = validateMaxLength (utf8 "max=" ++ s) v n := by
  have h : HasPrefix (utf8 "max=" ++ s) (utf8 "min=") = false := by
    simp [HasPrefix, utf8_min, utf8_max]
  simp [applyRule, HasPrefix_append, h]

theorem valAcc_ge (s : List Byte) (a : Nat) : a ≤ valAcc a s := by
  induction s generalizing a with
  | nil => simp [valAcc]
  | cons c cs ih =>
    have := ih (a * 10 + (c.val - 48))
    simp only [valAcc, List.foldl_cons] at this ⊢
    omega

theorem atoiFastLoop_digits (s : List Byte) (a : Nat) (hs : ∀ c ∈ s, isDigit c) :
    atoiFastLoop (a : Int) s = some ((valAcc a s : Nat) : Int) := by
  induction s generalizing a with
  | nil => simp [atoiFastLoop, valAcc]
  | cons c cs ih =>
    have hc := hs c (List.mem_cons_self _ _)
    unfold isDigit at hc
    have h1 : (c.val + 256 - 48) % 256 = c.val - 48 := by omega
    have h2 : ¬ (c.val - 48 > 9) := by omega
    have := ih (a * 10 + (c.val - 48)) (fun x hx => hs x (List.mem_cons_of_mem _ hx))
    simp only [atoiFastLoop, h1, h2, if_false]
    simp only [valAcc, List.foldl_cons] at this ⊢
    rw [← this]
    push_cast
    rfl

theorem parseUintLoop_digits (s : List Byte) (a : Nat) (hs : ∀ c ∈ s, isDigit c)
    (hv : valAcc a s < 2 ^ 64) : parseUintLoop a s = (valAcc a s, none) := by
  induction s generalizing a with
  | nil => simp [parseUintLoop, valAcc]
  | cons c cs ih =>
    have hc := hs c (List.mem_cons_self _ _)
    unfold isDigit at hc
    have hv1 : valAcc (a * 10 + (c.val - 48)) cs < 2 ^ 64 := by
      simpa only [valAcc, List.foldl_cons] using hv
    have hge := valAcc_ge cs (a * 10 + (c.val - 48))
    have := ih (a * 10 + (c.val - 48)) (fun x hx => hs x (List.mem_cons_of_mem _ hx)) hv1
    have e1 : (a * 10) % 2 ^ 64 = a * 10 := Nat.mod_eq_of_lt (by omega)
    have e2 : (a * 10 + (c.val - 48)) % 2 ^ 64 = a * 10 + (c.val - 48) :=
      Nat.mod_eq_of_lt (by omega)
    have e3 : ¬ (a ≥ maxUint64 / 10 + 1) := by
      simp only [maxUint64]
      omega
    have e4 : ¬ (c.val - 48 ≥ 10) := by omega
    have e5 : ¬ (a * 10 + (c.val - 48) < a * 10 ∨ a * 10 + (c.val - 48) > 2 ^ intSize - 1) := by
      simp only [intSize]
      omega
    rw [parseUintLoop]
    simp only [hc, and_self, if_true, e1, e2, e3, e4, e5, if_false, this]
    simp only [valAcc, List.foldl_cons]

theorem Atoi_digits (s : GoString) (hne : s ≠ []) (hs : ∀ c ∈ s, isDigit c)
    (hv : valAcc 0 s < 2 ^ 63) : Atoi s = (((valAcc 0 s : Nat) : Int), none) := by
  cases s with
  | nil => exact absurd rfl hne
  | cons c cs =>
    have hc := hs c (List.mem_cons_self _ _)
    unfold isDigit at hc
    have c45 : c ≠ 45 := fun h => by rw [h] at hc; omega
    have c43 : c ≠ 43 := fun h => by rw [h] at hc; omega
    by_cases hl : (c :: cs).length < 19
    · have := atoiFastLoop_digits (c :: cs) 0 hs
      simp only [Nat.cast_zero] at this
      simp only [Atoi]
      rw [if_pos hl]
      simp [c45, c43, this]
    · have hp := parseUintLoop_digits (c :: cs) 0 hs (by omega)
      have e1 : ¬ (valAcc 0 (c :: cs) ≥ 2 ^ (intSize - 1)) := by
        simp only [intSize]; omega
      have e2 : toInt64 (valAcc 0 (c :: cs)) = ((valAcc 0 (c :: cs) : Nat) : Int) := by
        have : valAcc 0 (c :: cs) % 2 ^ 64 = valAcc 0 (c :: cs) := Nat.mod_eq_of_lt (by omega)
        simp only [toInt64, this]
        rw [if_pos hv]
      simp only [Atoi]
      rw [if_neg hl]
      simp [ParseInt, c45, c43, ParseUint, hp, e1, e2]

theorem natDigits_spec (fuel n : Nat) (acc : List Byte) (h : n < fuel) :
    ∃ ds : List Byte, natDigits fuel n acc = ds ++ acc ∧ ds ≠ [] ∧
      (∀ c ∈ ds, isDigit c) ∧ valAcc 0 ds = n := by
  induction fuel generalizing n acc with
  | zero => omega
  | succ fuel ih =>
    have hd : ((Fin.ofNat (48 + n % 10) : Byte)).val = 48 + n % 10 := by
      simp only [Fin.ofNat, Nat.reduceAdd]
      omega
    by_cases h0 : n / 10 = 0
    · refine ⟨[Fin.ofNat (48 + n % 10)], by simp [natDigits, h0], by simp, ?_, ?_⟩
      · intro c hc
        rw [List.mem_singleton.1 hc]
        unfold isDigit
        omega
      · simp only [valAcc, List.foldl_cons, List.foldl_nil, hd]
        omega
    · obtain ⟨ds, h1, -, h3, h4⟩ := ih (n / 10) (Fin.ofNat (48 + n % 10) :: acc) (by omega)
      refine ⟨ds ++ [Fin.ofNat (48 + n % 10)], by simp [natDigits, h0, h1], by simp, ?_, ?_⟩
      · intro c hc
        rcases List.mem_append.1 hc with hc | hc
        · exact h3 c hc
        · rw [List.mem_singleton.1 hc]
          unfold isDigit
          omega
      · simp only [valAcc, List.foldl_append, List.foldl_cons, List.foldl_nil, hd] at h4 ⊢
        rw [h4]
        omega

theorem fmtInt_nat (n : Nat) :
    fmtInt (n : Int) ≠ [] ∧ (∀ c ∈ fmtInt (n : Int), isDigit c) ∧ valAcc 0 (fmtInt (n : Int)) = n := by
  obtain ⟨ds, h1, h2, h3, h4⟩ := natDigits_spec (n + 1) n [] (by omega)
  have : fmtInt (n : Int) = ds := by
    simp [fmtInt, h1]
  rw [this]
  exact ⟨h2, h3, h4⟩

theorem Atoi_fmtInt (n : Int) (h0 : 0 ≤ n) (h1 : n < 2 ^ 63) : Atoi (fmtInt n) = (n, none) := by
  obtain ⟨k, rfl⟩ := Int.eq_ofNat_of_zero_le h0
  obtain ⟨a, b, c⟩ := fmtInt_nat k
  rw [Atoi_digits _ a b (by rw [c]; exact_mod_cast h1), c]

/-- C6: for every integer `0 <= n < 2^63` written in decimal, the token `min=n`
rejects the value `v` of the field `f` exactly when `len(v) < n`, and the message is
then `<f> must be at least <n> characters long`, with `n` in decimal.  The same
holds for every other string of decimal digits that denotes `n` (leading zeros). -/
theorem applyRule_min_decimal (n : Int) (h0 : 0 ≤ n) (h1 : n < 2 ^ 63) (f v : GoString) :
    (applyRule (utf8 "min=" ++ fmtInt n) v f =
      if len v < n then
        some (f ++ utf8 " must be at least " ++ fmtInt n ++ utf8 " characters long")
      else none) ∧
    (∀ s : GoString, s ≠ [] → (∀ c ∈ s, isDigit c) → ((valAcc 0 s : Nat) : Int) = n →
      applyRule (utf8 "min=" ++ s) v f =
        if len v < n then
          some (f ++ utf8 " must be at least " ++ fmtInt n ++ utf8 " characters long")
        else none) := by
  constructor
  · rw [applyRule_min]
    simp only [validateMinLength, TrimPrefix_append, Atoi_fmtInt n h0 h1, errMin]
  · intro s hne hs hv
    have hlt : valAcc 0 s < 2 ^ 63 := by
      have : ((valAcc 0 s : Nat) : Int) < 2 ^ 63 := by rw [hv]; exact h1
      exact_mod_cast this
    rw [applyRule_min]
    simp only [validateMinLength, TrimPrefix_append, Atoi_digits s hne hs hlt, hv, errMin]

theorem applyRule_min_decimal_witness :
    applyRule (utf8 "min=" ++ fmtInt 2) (utf8 "A") (utf8 "Name") =
      if len (utf8 "A") < 2 then
        some (utf8 "Name" ++ utf8 " must be at least " ++ fmtInt 2 ++ utf8 " characters long")
      else none :=
  (applyRule_min_decimal 2 (by decide) (by decide) (utf8 "Name") (utf8 "A")).1

/-- C7: for every integer `0 <= n < 2^63` written in decimal, the token `max=n`
rejects the value `v` of the field `f` exactly when `len(v) > n`, and the message is
then `<f> must be at most <n> characters long`, with `n` in decimal.  The same
holds for every other string of decimal digits that denotes `n` (leading zeros). -/
theorem applyRule_max_decimal (n : Int) (h0 : 0 ≤ n) (h1 : n < 2 ^ 63) (f v : GoString) :
    (applyRule (utf8 "max=" ++ fmtInt n) v f =
      if len v > n then
        some (f ++ utf8 " must be at most " ++ fmtInt n ++ utf8 " characters long")
      else none) ∧
    (∀ s : GoString, s ≠ [] → (∀ c ∈ s, isDigit c) → ((valAcc 0 s : Nat) : Int) = n →
      applyRule (utf8 "max=" ++ s) v f =
        if len v > n then
          some (f ++ utf8 " must be at most " ++ fmtInt n ++ utf8 " characters long")
        else none) := by
  constructor
  · rw [applyRule_max]
    simp only [validateMaxLength, TrimPrefix_append, Atoi_fmtInt n h0 h1, errMax]
  · intro s hne hs hv
    have hlt : valAcc 0 s < 2 ^ 63 := by
      have : ((valAcc 0 s : Nat) : Int) < 2 ^ 63 := by rw [hv]; exact h1
      exact_mod_cast this
    rw [applyRule_max]
    simp only [validateMaxLength, TrimPrefix_append, Atoi_digits s hne hs hlt, hv, errMax]

theorem applyRule_max_decimal_witness :
    applyRule (utf8 "max=" ++ fmtInt 3) (utf8 "Alice") (utf8 "Name") =
      if len (utf8 "Alice") > 3 then
        some (utf8 "Name" ++ utf8 " must be at most " ++ fmtInt 3 ++ utf8 " characters long")
      else none :=
  (applyRule_max_decimal 3 (by decide) (by decide) (utf8 "Name") (utf8 "Alice")).1

/-! ## The derivative matcher against the semantics of the pattern -/

namespace Regex

theorem lang_cat (r q : Regex) (s : GoString) :
    lang (cat r q) s ↔ ∃ s1 s2, s = s1 ++ s2 ∧ lang r s1 ∧ lang q s2 := by
  simp only [lang]

theorem lang_cls (rs : List (Char × Char)) (s : GoString) :
    lang (cls rs) s ↔ ∃ c, s = [c] ∧ inClass rs c = true := by
  simp only [lang]

theorem nullable_iff (r : Regex) : nullable r = true ↔ lang r [] := by
  induction r with
  | nothing => simp [nullable, lang]
  | eps => simp [nullable, lang]
  | cls rs => simp [nullable, lang]
  | cat r q ihr ihq =>
    simp only [nullable, lang, Bool.and_eq_true, ihr, ihq]
    constructor
    · rintro ⟨h1, h2⟩
      exact ⟨[], [], rfl, h1, h2⟩
    · rintro ⟨s1, s2, h, h1, h2⟩
      have h3 := List.append_eq_nil.1 h.symm
      rw [h3.1] at h1
      rw [h3.2] at h2
      exact ⟨h1, h2⟩
  | alt r q ihr ihq => simp only [nullable, lang, Bool.or_eq_true, ihr, ihq]
  | star r _ =>
    simp only [nullable, lang, true_iff]
    exact ⟨[], rfl, by simp⟩

theorem star_cons_iff (r : Regex) (c : Byte) (s : GoString) :
    lang (star r) (c :: s) ↔ ∃ s1 s2, s = s1 ++ s2 ∧ lang r (c :: s1) ∧ lang (star r) s2 := by
  constructor
  · rintro ⟨L, hL, hall⟩
    induction L with
    | nil => simp at hL
    | cons x L ih =>
      cases x with
      | nil =>
        simp only [List.flatten_cons, List.nil_append] at hL
        exact ih hL (fun y hy => hall y (List.mem_cons_of_mem _ hy))
      | cons d x =>
        simp only [List.flatten_cons, List.cons_append, List.cons.injEq] at hL
        obtain ⟨rfl, rfl⟩ := hL
        exact ⟨x, L.flatten, rfl, hall _ (List.mem_cons_self _ _),
          L, rfl, fun y hy => hall y (List.mem_cons_of_mem _ hy)⟩
  · rintro ⟨s1, s2, rfl, h1, L, rfl, hall⟩
    refine ⟨(c :: s1) :: L, by simp, ?_⟩
    intro y hy
    rcases List.mem_cons.1 hy with rfl | hy
    · exact h1
    · exact hall y hy

theorem deriv_iff (r : Regex) (c : Byte) (s : GoString) :
    lang (deriv c r) s ↔ lang r (c :: s) := by
  induction r generalizing s with
  | nothing => simp [deriv, lang]
  | eps => simp [deriv, lang]
  | cls rs =>
    by_cases h : inClass rs c = true
    · simp only [deriv, h, if_true, lang]
      constructor
      · rintro rfl
        exact ⟨c, rfl, h⟩
      · rintro ⟨d, hd, -⟩
        simp only [List.cons.injEq] at hd
        exact hd.2
    · simp only [deriv, h, lang, false_iff]
      rintro ⟨d, hd, hin⟩
      simp only [List.cons.injEq] at hd
      rw [← hd.1] at hin
      exact h hin
  | cat r q ihr ihq =>
    have key : lang (cat r q) (c :: s) ↔
        (∃ s1 s2, s = s1 ++ s2 ∧ lang r (c :: s1) ∧ lang q s2) ∨
          (lang r [] ∧ lang q (c :: s)) := by
      simp only [lang]
      constructor
      · rintro ⟨s1, s2, h, h1, h2⟩
        cases s1 with
        | nil =>
          simp only [List.nil_append] at h
          rw [← h] at h2
          exact Or.inr ⟨h1, h2⟩
        | cons d s1 =>
          simp only [List.cons_append, List.cons.injEq] at h
          obtain ⟨rfl, rfl⟩ := h
          exact Or.inl ⟨s1, s2, rfl, h1, h2⟩
      · rintro (⟨s1, s2, rfl, h1, h2⟩ | ⟨h1, h2⟩)
        · exact ⟨c :: s1, s2, rfl, h1, h2⟩
        · exact ⟨[], c :: s, rfl, h1, h2⟩
    rw [key]
    by_cases hn : nullable r = true
    · simp only [deriv, hn, if_true, lang, ihr, ihq, (nullable_iff r).1 hn, true_and]
    · have hn1 : ¬ lang r [] := fun h => hn ((nullable_iff r).2 h)
      simp only [deriv, hn, lang, ihr, hn1, false_and, or_false]
  | alt r q ihr ihq => simp only [deriv, lang, ihr, ihq]
  | star r ih =>
    rw [star_cons_iff]
    simp only [deriv, lang, ih]

theorem fullMatch_iff (r : Regex) (s : GoString) : fullMatch r s = true ↔ lang r s := by
  induction s generalizing r with
  | nil => simp [fullMatch, nullable_iff]
  | cons c s ih =>
    have := ih (deriv c r)
    simp only [fullMatch, List.foldl_cons] at this ⊢
    rw [this, deriv_iff]

theorem lang_star_cls (rs : List (Char × Char)) (s : GoString) :
    lang (star (cls rs)) s ↔ ∀ c ∈ s, inClass rs c = true := by
  induction s with
  | nil =>
    simp only [List.not_mem_nil, false_implies, implies_true, iff_true]
    exact ⟨[], rfl, by simp⟩
  | cons c s ih =>
    rw [star_cons_iff]
    constructor
    · rintro ⟨s1, s2, rfl, ⟨d, hd, hin⟩, h2⟩
      simp only [List.cons.injEq] at hd
      obtain ⟨rfl, rfl⟩ := hd
      simp only [List.nil_append] at ih ⊢
      intro x hx
      rcases List.mem_cons.1 hx with rfl | hx
      · exact hin
      · exact ih.1 h2 x hx
    · intro h
      exact ⟨[], s, rfl, ⟨c, rfl, h c (List.mem_cons_self _ _)⟩,
        ih.2 (fun x hx => h x (List.mem_cons_of_mem _ hx))⟩

theorem lang_plus_cls (rs : List (Char × Char)) (s : GoString) :
    lang (plus (cls rs)) s ↔ s ≠ [] ∧ ∀ c ∈ s, inClass rs c = true := by
  rw [plus, lang_cat]
  constructor
  · rintro ⟨s1, s2, rfl, h1, h2⟩
    obtain ⟨c, rfl, hc⟩ := (lang_cls rs s1).1 h1
    refine ⟨by simp, ?_⟩
    intro x hx
    rcases List.mem_cons.1 hx with rfl | hx
    · exact hc
    · exact (lang_star_cls rs s2).1 h2 x hx
  · rintro ⟨hne, h⟩
    cases s with
    | nil => exact absurd rfl hne
    | cons c s =>
      exact ⟨[c], s, rfl, (lang_cls rs [c]).2 ⟨c, rfl, h c (List.mem_cons_self _ _)⟩,
        (lang_star_cls rs s).2 (fun x hx => h x (List.mem_cons_of_mem _ hx))⟩

theorem lang_lit (ch : Char) (s : GoString) :
    lang (lit ch) s ↔ ∃ c : Byte, s = [c] ∧ c.val = ch.toNat := by
  simp only [lit, lang, inClass, List.any_cons, List.any_nil, Bool.or_false, Bool.and_eq_true,
    decide_eq_true_eq]
  constructor
  · rintro ⟨c, rfl, h1, h2⟩
    exact ⟨c, rfl, by omega⟩
  · rintro ⟨c, rfl, h⟩
    exact ⟨c, rfl, by omega, by omega⟩

theorem lang_rep24_cls (rs : List (Char × Char)) (s : GoString) :
    lang (rep24 (cls rs)) s ↔
      (s.length = 2 ∨ s.length = 3 ∨ s.length = 4) ∧ ∀ c ∈ s, inClass rs c = true := by
  simp only [rep24, opt, lang]
  constructor
  · rintro ⟨s1, s2, rfl, ⟨a, rfl, ha⟩, s3, s4, rfl, ⟨b, rfl, hb⟩, h⟩
    rcases h with ⟨s5, s6, rfl, ⟨c, rfl, hc⟩, h⟩ | rfl
    · rcases h with ⟨d, rfl, hd⟩ | rfl
      · refine ⟨by simp, ?_⟩
        intro x hx
        simp only [List.singleton_append, List.mem_cons, List.mem_singleton, List.not_mem_nil,
          or_false] at hx
        rcases hx with rfl | rfl | rfl | rfl <;> assumption
      · refine ⟨by simp, ?_⟩
        intro x hx
        simp only [List.singleton_append, List.mem_cons, List.mem_singleton, List.not_mem_nil,
          or_false, List.append_nil] at hx
        rcases hx with rfl | rfl | rfl <;> assumption
    · refine ⟨by simp, ?_⟩
      intro x hx
      simp only [List.singleton_append, List.mem_cons, List.mem_singleton, List.not_mem_nil,
        or_false, List.append_nil] at hx
      rcases hx with rfl | rfl <;> assumption
  · rintro ⟨hl, h⟩
    match s, hl, h with
    | [a, b], _, h =>
      exact ⟨[a], [b], rfl, ⟨a, rfl, h a (by simp)⟩, [b], [], rfl, ⟨b, rfl, h b (by simp)⟩,
        Or.inr rfl⟩
    | [a, b, c], _, h =>
      exact ⟨[a], [b, c], rfl, ⟨a, rfl, h a (by simp)⟩, [b], [c], rfl, ⟨b, rfl, h b (by simp)⟩,
        Or.inl ⟨[c], [], rfl, ⟨c, rfl, h c (by simp)⟩, Or.inr rfl⟩⟩
    | [a, b, c, d], _, h =>
      exact ⟨[a], [b, c, d], rfl, ⟨a, rfl, h a (by simp)⟩, [b], [c, d], rfl,
        ⟨b, rfl, h b (by simp)⟩,
        Or.inl ⟨[c], [d], rfl, ⟨c, rfl, h c (by simp)⟩, Or.inl ⟨d, rfl, h d (by simp)⟩⟩⟩
    | [], hl, _ => simp at hl
    | [_], hl, _ => simp at hl
    | _ :: _ :: _ :: _ :: _ :: _, hl, _ => simp at hl

end Regex

/-! ## The e-mail pattern -/

theorem inClass_local (c : Byte) :
    Regex.inClass [('a', 'z'), ('0', '9'), ('.', '.'), ('_', '_'), ('%', '%'), ('+', '+'),
      ('-', '-')] c = true ↔ isLocalChar c := by
  have e : ∀ k : Nat, k < 256 → (c = (Fin.ofNat k : Byte) ↔ c.val = k) := by
    intro k hk
    rw [Fin.ext_iff]
    simp [Fin.ofNat, Nat.mod_eq_of_lt hk]
  have e46 := e 46 (by omega)
  have e95 := e 95 (by omega)
  have e37 := e 37 (by omega)
  have e43 := e 43 (by omega)
  have e45 := e 45 (by omega)
  simp only [Regex.inClass, List.any_cons, List.any_nil, Bool.or_false, Bool.or_eq_true,
    Bool.and_eq_true, decide_eq_true_eq, isLocalChar, isLowerAlpha, isDigit]
  change _ ↔ _ ∨ _ ∨ c = Fin.ofNat 46 ∨ c = Fin.ofNat 95 ∨ c = Fin.ofNat 37 ∨ c = Fin.ofNat 43 ∨
    c = Fin.ofNat 45
  rw [e46, e95, e37, e43, e45]
  have h1 : 'a'.toNat = 97 := rfl
  have h2 : 'z'.toNat = 122 := rfl
  have h3 : '0'.toNat = 48 := rfl
  have h4 : '9'.toNat = 57 := rfl
  have h5 : '.'.toNat = 46 := rfl
  have h6 : '_'.toNat = 95 := rfl
  have h7 : '%'.toNat = 37 := rfl
  have h8 : '+'.toNat = 43 := rfl
  have h9 : '-'.toNat = 45 := rfl
  rw [h1, h2, h3, h4, h5, h6, h7, h8, h9]
  omega

theorem inClass_domain (c : Byte) :
    Regex.inClass [('a', 'z'), ('0', '9'), ('.', '.'), ('-', '-')] c = true ↔ isDomainChar c := by
  have e : ∀ k : Nat, k < 256 → (c = (Fin.ofNat k : Byte) ↔ c.val = k) := by
    intro k hk
    rw [Fin.ext_iff]
    simp [Fin.ofNat, Nat.mod_eq_of_lt hk]
  have e46 := e 46 (by omega)
  have e45 := e 45 (by omega)
  simp only [Regex.inClass, List.any_cons, List.any_nil, Bool.or_false, Bool.or_eq_true,
    Bool.and_eq_true, decide_eq_true_eq, isDomainChar, isLowerAlpha, isDigit]
  change _ ↔ _ ∨ _ ∨ c = Fin.ofNat 46 ∨ c = Fin.ofNat 45
  rw [e46, e45]
  have h1 : 'a'.toNat = 97 := rfl
  have h2 : 'z'.toNat = 122 := rfl
  have h3 : '0'.toNat = 48 := rfl
  have h4 : '9'.toNat = 57 := rfl
  have h5 : '.'.toNat = 46 := rfl
  have h9 : '-'.toNat = 45 := rfl
  rw [h1, h2, h3, h4, h5, h9]
  omega

theorem inClass_lower (c : Byte) :
    Regex.inClass [('a', 'z')] c = true ↔ isLowerAlpha c := by
  simp only [Regex.inClass, List.any_cons, List.any_nil, Bool.or_false,
    Bool.and_eq_true, decide_eq_true_eq, isLowerAlpha]
  have h1 : 'a'.toNat = 97 := rfl
  have h2 : 'z'.toNat = 122 := rfl
  rw [h1, h2]

theorem lang_lit_at (s : GoString) : Regex.lang (Regex.lit '@') s ↔ s = utf8 "@" := by
  rw [Regex.lang_lit]
  have h : utf8 "@" = [Fin.ofNat 64] := by decide
  have h1 : '@'.toNat = 64 := rfl
  rw [h, h1]
  constructor
  · rintro ⟨c, rfl, hc⟩
    congr 1
    exact Fin.ext hc
  · rintro rfl
    exact ⟨_, rfl, rfl⟩

theorem lang_lit_dot (s : GoString) : Regex.lang (Regex.lit '.') s ↔ s = utf8 "." := by
  rw [Regex.lang_lit]
  have h : utf8 "." = [Fin.ofNat 46] := by decide
  have h1 : '.'.toNat = 46 := rfl
  rw [h, h1]
  constructor
  · rintro ⟨c, rfl, hc⟩
    congr 1
    exact Fin.ext hc
  · rintro rfl
    exact ⟨_, rfl, rfl⟩

theorem MatchString_iff (v : GoString) : MatchString v = true ↔ emailShape v := by
  rw [MatchString, Regex.fullMatch_iff, emailRegex]
  simp only [Regex.lang_cat, Regex.lang_plus_cls, Regex.lang_rep24_cls, lang_lit_at,
    lang_lit_dot, inClass_local, inClass_domain, inClass_lower, emailShape]
  constructor
  · rintro ⟨s1, s2, rfl, ⟨h1, h2⟩, s3, s4, rfl, rfl, s5, s6, rfl, ⟨h3, h4⟩, s7, s8, rfl, rfl,
      h5, h6⟩
    exact ⟨s1, s5, s8, by simp only [List.append_assoc], h1, h2, h3, h4, h5, h6⟩
  · rintro ⟨loc, domain, tld, rfl, h1, h2, h3, h4, h5, h6⟩
    exact ⟨loc, _, by simp only [List.append_assoc], ⟨h1, h2⟩, _, _, rfl, rfl, domain, _,
      rfl, ⟨h3, h4⟩, _, tld, rfl, rfl, h5, h6⟩

/-- C8: the e-mail checker accepts exactly the values of the reference shape
`local@domain.tld` (non-empty local part over `[a-z0-9._%+-]`, non-empty domain
over `[a-z0-9.-]`, 2 to 4 letters `a-z` at the end, nothing before or after), and
on every other value its message is `<fieldName> must be a valid email address`. -/
theorem validateEmail_iff_emailShape (name v : GoString) :
    (validateEmail v name = none ↔ emailShape v) ∧
    (validateEmail v name = some (name ++ utf8 " must be a valid email address") ↔
      ¬ emailShape v) ∧
    applyRule (utf8 "email") v name = validateEmail v name := by
  refine ⟨?_, ?_, applyRule_email v name⟩
  · rw [← MatchString_iff]
    cases h : MatchString v <;> simp [validateEmail, h]
  · rw [← MatchString_iff]
    cases h : MatchString v <;> simp [validateEmail, h, errEmail]

theorem not_emailShape_of_upper (v : GoString) (h : ∃ c ∈ v, isUpperAlpha c) :
    ¬ emailShape v := by
  rintro ⟨loc, domain, tld, rfl, -, h2, -, h4, -, h6⟩
  obtain ⟨c, hc, hu⟩ := h
  have e : ∀ k : Nat, k < 256 → (c = (Fin.ofNat k : Byte) → c.val = k) := by
    intro k hk hck
    rw [hck]
    simp [Fin.ofNat, Nat.mod_eq_of_lt hk]
  have hat : utf8 "@" = [Fin.ofNat 64] := by decide
  have hdot : utf8 "." = [Fin.ofNat 46] := by decide
  unfold isUpperAlpha at hu
  simp only [List.mem_append, hat, hdot, List.mem_singleton] at hc
  rcases hc with (((hc | hc) | hc) | hc) | hc
  · rcases h2 c hc with h | h | h | h | h | h | h
    · unfold isLowerAlpha at h; omega
    · unfold isDigit at h; omega
    · have := e 46 (by omega) h; omega
    · have := e 95 (by omega) h; omega
    · have := e 37 (by omega) h; omega
    · have := e 43 (by omega) h; omega
    · have := e 45 (by omega) h; omega
  · have := e 64 (by omega) hc; omega
  · rcases h4 c hc with h | h | h | h
    · unfold isLowerAlpha at h; omega
    · unfold isDigit at h; omega
    · have := e 46 (by omega) h; omega
    · have := e 45 (by omega) h; omega
  · have := e 46 (by omega) hc; omega
  · have h := h6 c hc
    unfold isLowerAlpha at h; omega

/-- C9: the e-mail rule accepts `alice@example.com` and rejects `aliceexample.com`,
`ALICE@EXAMPLE.COM` and `a@b.c`; and it rejects every value that contains an ASCII
capital letter. -/
theorem validateEmail_documented_inputs :
    (∀ name : GoString, applyRule (utf8 "email") (utf8 "alice@example.com") name = none) ∧
    (∀ name : GoString, applyRule (utf8 "email") (utf8 "aliceexample.com") name =
      some (name ++ utf8 " must be a valid email address")) ∧
    (∀ name : GoString, applyRule (utf8 "email") (utf8 "ALICE@EXAMPLE.COM") name =
      some (name ++ utf8 " must be a valid email address")) ∧
    (∀ name : GoString, applyRule (utf8 "email") (utf8 "a@b.c") name =
      some (name ++ utf8 " must be a valid email address")) ∧
    (∀ name v : GoString, (∃ c ∈ v, isUpperAlpha c) →
      applyRule (utf8 "email") v name = some (name ++ utf8 " must be a valid email address")) := by
  have h1 : MatchString (utf8 "alice@example.com") = true := by decide
  have h2 : MatchString (utf8 "aliceexample.com") = false := by decide
  have h3 : MatchString (utf8 "ALICE@EXAMPLE.COM") = false := by decide
  have h4 : MatchString (utf8 "a@b.c") = false := by decide
  refine ⟨?_, ?_, ?_, ?_, ?_⟩
  · intro name; simp [applyRule_email, validateEmail, h1]
  · intro name; simp [applyRule_email, validateEmail, h2, errEmail]
  · intro name; simp [applyRule_email, validateEmail, h3, errEmail]
  · intro name; simp [applyRule_email, validateEmail, h4, errEmail]
  · intro name v hv
    have : MatchString v = false := by
      cases h : MatchString v
      · rfl
      · exact absurd ((MatchString_iff v).1 h) (not_emailShape_of_upper v hv)
    simp [applyRule_email, validateEmail, this, errEmail]

theorem validateEmail_documented_inputs_witness :
    applyRule (utf8 "email") (utf8 "Alice@example.com") (utf8 "Email") =
      some (utf8 "Email" ++ utf8 " must be a valid email address") :=
  validateEmail_documented_inputs.2.2.2.2 (utf8 "Email") (utf8 "Alice@example.com")
    ⟨65, by decide, by unfold isUpperAlpha; decide⟩

/-! ## Malformed and out-of-range thresholds -/

theorem atoiFastLoop_nondigit (ds : List Byte) (c : Byte) (rest : List Byte) (a : Int)
    (hds : ∀ d ∈ ds, isDigit d) (hc : ¬ isDigit c) :
    atoiFastLoop a (ds ++ c :: rest) = none := by
  induction ds generalizing a with
  | nil =>
    unfold isDigit at hc
    have h : (c.val + 256 - 48) % 256 > 9 := by omega
    simp only [List.nil_append, atoiFastLoop, h, if_true]
  | cons d ds ih =>
    have hd := hds d (List.mem_cons_self _ _)
    unfold isDigit at hd
    have h : ¬ ((d.val + 256 - 48) % 256 > 9) := by omega
    simp only [List.cons_append, atoiFastLoop, h, if_false]
    exact ih _ (fun x hx => hds x (List.mem_cons_of_mem _ hx))

theorem parseUintLoop_cons_digit (a : Nat) (c : Byte) (cs : List Byte) (hc : isDigit c)
    (ha : a * 10 + (c.val - 48) < 2 ^ 64) :
    parseUintLoop a (c :: cs) = parseUintLoop (a * 10 + (c.val - 48)) cs := by
  unfold isDigit at hc
  have e1 : (a * 10) % 2 ^ 64 = a * 10 := Nat.mod_eq_of_lt (by omega)
  have e2 : (a * 10 + (c.val - 48)) % 2 ^ 64 = a * 10 + (c.val - 48) :=
    Nat.mod_eq_of_lt (by omega)
  have e3 : ¬ (a ≥ maxUint64 / 10 + 1) := by
    simp only [maxUint64]
    omega
  have e4 : ¬ (c.val - 48 ≥ 10) := by omega
  have e5 : ¬ (a * 10 + (c.val - 48) < a * 10 ∨ a * 10 + (c.val - 48) > 2 ^ intSize - 1) := by
    simp only [intSize]
    omega
  rw [parseUintLoop]
  simp only [hc, and_self, if_true, e1, e2, e3, e4, e5, if_false]

theorem parseUintLoop_cons_overflow (a : Nat) (c : Byte) (cs : List Byte) (hc : isDigit c)
    (ha : a < 2 ^ 64) (hov : 2 ^ 64 ≤ a * 10 + (c.val - 48)) :
    parseUintLoop a (c :: cs) = (2 ^ 64 - 1, some .ErrRange) := by
  unfold isDigit at hc
  have e4 : ¬ (c.val - 48 ≥ 10) := by omega
  rw [parseUintLoop]
  simp only [hc, and_self, if_true, e4, if_false, intSize]
  by_cases e3 : a ≥ maxUint64 / 10 + 1
  · simp only [e3, if_true]
  · have e3' : a < 1844674407370955162 := by
      simp only [maxUint64] at e3
      omega
    have e1 : (a * 10) % 2 ^ 64 = a * 10 := Nat.mod_eq_of_lt (by omega)
    have e2 : (a * 10 + (c.val - 48)) % 2 ^ 64 = a * 10 + (c.val - 48) - 2 ^ 64 := by
      omega
    have e5 : a * 10 + (c.val - 48) - 2 ^ 64 < a * 10 ∨
        a * 10 + (c.val - 48) - 2 ^ 64 > 2 ^ 64 - 1 := by
      left
      omega
    simp only [e3, if_false, e1, e2, e5, if_true]

theorem parseUintLoop_cons_nondigit (a : Nat) (c : Byte) (cs : List Byte) (hc : ¬ isDigit c) :
    parseUintLoop a (c :: cs) = (0, some .ErrSyntax) := by
  unfold isDigit at hc
  rw [parseUintLoop]
  simp only [hc, if_false]
  by_cases hl : 97 ≤ (lower c).val ∧ (lower c).val ≤ 122
  · have : (lower c).val - 97 + 10 ≥ 10 := by omega
    simp only [hl, and_self, if_true, this]
  · simp only [hl, if_false]

theorem parseUintLoop_nondigit (ds : List Byte) (c : Byte) (rest : List Byte) (a : Nat)
    (hds : ∀ d ∈ ds, isDigit d) (hc : ¬ isDigit c) (hv : valAcc a ds < 2 ^ 64) :
    parseUintLoop a (ds ++ c :: rest) = (0, some .ErrSyntax) := by
  induction ds generalizing a with
  | nil => exact parseUintLoop_cons_nondigit a c rest hc
  | cons d ds ih =>
    have hv1 : valAcc (a * 10 + (d.val - 48)) ds < 2 ^ 64 := by
      simpa only [valAcc, List.foldl_cons] using hv
    have hge := valAcc_ge ds (a * 10 + (d.val - 48))
    rw [List.cons_append, parseUintLoop_cons_digit a d _ (hds d (List.mem_cons_self _ _))
      (by omega)]
    exact ih _ (fun x hx => hds x (List.mem_cons_of_mem _ hx)) hv1

theorem parseUintLoop_all_digits (s : List Byte) (a : Nat) (hs : ∀ c ∈ s, isDigit c)
    (ha : a < 2 ^ 64) :
    parseUintLoop a s =
      if valAcc a s < 2 ^ 64 then (valAcc a s, none) else (2 ^ 64 - 1, some .ErrRange) := by
  induction s generalizing a with
  | nil =>
    simp only [parseUintLoop, valAcc, List.foldl_nil]
    rw [if_pos ha]
  | cons c cs ih =>
    have hc := hs c (List.mem_cons_self _ _)
    have hge := valAcc_ge cs (a * 10 + (c.val - 48))
    have hval : valAcc a (c :: cs) = valAcc (a * 10 + (c.val - 48)) cs := by
      simp only [valAcc, List.foldl_cons]
    by_cases hov : a * 10 + (c.val - 48) < 2 ^ 64
    · rw [parseUintLoop_cons_digit a c cs hc hov, hval]
      exact ih _ (fun x hx => hs x (List.mem_cons_of_mem _ hx)) hov
    · rw [parseUintLoop_cons_overflow a c cs hc ha (by omega), hval]
      rw [if_neg (by omega)]

theorem valAcc_lt_pow (s : List Byte) (a : Nat) (hs : ∀ c ∈ s, isDigit c) :
    valAcc a s < (a + 1) * 10 ^ s.length := by
  induction s generalizing a with
  | nil => simp [valAcc]
  | cons c cs ih =>
    have hc := hs c (List.mem_cons_self _ _)
    unfold isDigit at hc
    have h1 := ih (a * 10 + (c.val - 48)) (fun x hx => hs x (List.mem_cons_of_mem _ hx))
    have h2 : (a * 10 + (c.val - 48) + 1) * 10 ^ cs.length ≤ ((a + 1) * 10) * 10 ^ cs.length :=
      Nat.mul_le_mul_right _ (by omega)
    have h3 : (a + 1) * 10 ^ (c :: cs).length = ((a + 1) * 10) * 10 ^ cs.length := by
      rw [List.length_cons, pow_succ]
      ring
    rw [h3]
    simp only [valAcc, List.foldl_cons] at h1 ⊢
    omega

theorem Atoi_syntaxError (s : GoString) (h : syntaxErrorSuffix s) :
    Atoi s = (0, some .ErrSyntax) := by
  cases s with
  | nil => simp [Atoi, ParseInt]
  | cons c cs =>
    have hfast : (if c = 45 ∨ c = 43 then cs else c :: cs) = stripSign (c :: cs) := by
      by_cases h1 : c = 45 <;> by_cases h2 : c = 43 <;> simp [stripSign, h1, h2]
    have hslow : (if c = 43 then cs else if c = 45 then cs else c :: cs) =
        stripSign (c :: cs) := by
      by_cases h1 : c = 45 <;> by_cases h2 : c = 43 <;> simp [stripSign, h1, h2]
    by_cases hl : (c :: cs).length < 19
    · simp only [Atoi]
      rw [if_pos hl, hfast]
      rcases h with h | ⟨ds, d, rest, h, hds, hd, -⟩
      · simp [h]
      · rw [h, atoiFastLoop_nondigit ds d rest 0 hds hd]
        simp
    · simp only [Atoi]
      rw [if_neg hl]
      simp only [ParseInt]
      rw [hslow]
      rcases h with h | ⟨ds, d, rest, h, hds, hd, hv⟩
      · simp [h, ParseUint]
      · rw [h]
        have : ParseUint (ds ++ d :: rest) = (0, some .ErrSyntax) := by
          simp only [ParseUint]
          rw [if_neg (by simp), parseUintLoop_nondigit ds d rest 0 hds hd hv]
        rw [this]
        simp

theorem Atoi_tooLarge (s : GoString) (hs : ∀ c ∈ s, isDigit c)
    (hv : 2 ^ 63 ≤ valAcc 0 s) : Atoi s = (2 ^ 63 - 1, some .ErrRange) := by
  have hlen : ¬ s.length < 19 := by
    intro hl
    have h1 := valAcc_lt_pow s 0 hs
    have h2 : 10 ^ s.length ≤ 10 ^ 18 := Nat.pow_le_pow_right (by omega) (by omega)
    omega
  cases s with
  | nil => simp at hlen
  | cons c cs =>
    have hc := hs c (List.mem_cons_self _ _)
    unfold isDigit at hc
    have c45 : c ≠ 45 := fun h => by rw [h] at hc; omega
    have c43 : c ≠ 43 := fun h => by rw [h] at hc; omega
    have hp := parseUintLoop_all_digits (c :: cs) 0 hs (by omega)
    simp only [Atoi]
    rw [if_neg hlen]
    by_cases hlt : valAcc 0 (c :: cs) < 2 ^ 64
    · rw [if_pos hlt] at hp
      have e1 : 9223372036854775808 ≤ valAcc 0 (c :: cs) := by omega
      simp [ParseInt, c45, c43, ParseUint, hp, e1, intSize]
    · rw [if_neg hlt] at hp
      simp [ParseInt, c45, c43, ParseUint, hp, intSize]

/-- C10 (counterexample): the suffix `9223372036854775808` is a digit string too
large for `int`, yet `min=9223372036854775808` rejects the value `hello` and
`max=9223372036854775808` accepts it. -/
theorem malformed_threshold_counterexample :
    (∀ c ∈ utf8 "9223372036854775808", isDigit c) ∧
    valAcc 0 (utf8 "9223372036854775808") = 2 ^ 63 ∧
    applyRule (utf8 "min=9223372036854775808") (utf8 "hello") (utf8 "Name") =
      some (utf8 "Name must be at least 9223372036854775807 characters long") ∧
    applyRule (utf8 "max=9223372036854775808") (utf8 "hello") (utf8 "Name") = none := by
  set_option maxRecDepth 100000 in
  refine ⟨?_, by decide, by decide, by decide⟩
  unfold isDigit
  decide

/-- C10 (amended): when the suffix `s` is not a number (empty, a lone sign, or a
non-digit byte reached by the parser), the threshold is 0: `min=s` accepts every
value and `max=s` rejects every non-empty value, with the message `at most 0`, and
accepts the empty one.  When `s` is a digit string denoting a number of at least
`2^63`, the threshold is `2^63 - 1`: `min=s` rejects every value shorter than that
and `max=s` accepts it.  In both cases the result is `nil` or a length message,
never an error about parsing. -/
theorem malformed_threshold (name v : GoString) :
    (∀ s, syntaxErrorSuffix s →
      applyRule (utf8 "min=" ++ s) v name = none ∧
      applyRule (utf8 "max=" ++ s) v name =
        if v = [] then none else some (name ++ utf8 " must be at most 0 characters long")) ∧
    (∀ s, (∀ c ∈ s, isDigit c) → 2 ^ 63 ≤ valAcc 0 s →
      applyRule (utf8 "min=" ++ s) v name =
        (if len v < 2 ^ 63 - 1 then
          some (name ++ utf8 " must be at least 9223372036854775807 characters long")
        else none) ∧
      applyRule (utf8 "max=" ++ s) v name =
        (if len v > 2 ^ 63 - 1 then
          some (name ++ utf8 " must be at most 9223372036854775807 characters long")
        else none)) := by
  constructor
  · intro s hs
    have h0 : utf8 " must be at most " ++ fmtInt 0 ++ utf8 " characters long" =
        utf8 " must be at most 0 characters long" := by decide
    have hlen : ¬ len v < 0 := by simp [len]
    constructor
    · rw [applyRule_min]
      simp only [validateMinLength, TrimPrefix_append, Atoi_syntaxError s hs, hlen, if_false]
    · rw [applyRule_max]
      simp only [validateMaxLength, TrimPrefix_append, Atoi_syntaxError s hs, errMax,
        List.append_assoc]
      rw [← h0, List.append_assoc]
      cases v with
      | nil => simp [len]
      | cons c cs =>
        have : len (c :: cs) > 0 := by simp [len]
        simp [this]
  · intro s hs hv
    have h1 : utf8 " must be at least " ++ fmtInt (2 ^ 63 - 1) ++ utf8 " characters long" =
        utf8 " must be at least 9223372036854775807 characters long" := by decide
    have h2 : utf8 " must be at most " ++ fmtInt (2 ^ 63 - 1) ++ utf8 " characters long" =
        utf8 " must be at most 9223372036854775807 characters long" := by decide
    constructor
    · rw [applyRule_min]
      simp only [validateMinLength, TrimPrefix_append, Atoi_tooLarge s hs hv, errMin,
        List.append_assoc]
      rw [← h1, List.append_assoc]
    · rw [applyRule_max]
      simp only [validateMaxLength, TrimPrefix_append, Atoi_tooLarge s hs hv, errMax,
        List.append_assoc]
      rw [← h2, List.append_assoc]

theorem malformed_threshold_witness :
    (applyRule (utf8 "min=" ++ utf8 "abc") (utf8 "hi") (utf8 "Name") = none ∧
      applyRule (utf8 "max=" ++ utf8 "abc") (utf8 "hi") (utf8 "Name") =
        if utf8 "hi" = [] then none
        else some (utf8 "Name" ++ utf8 " must be at most 0 characters long")) ∧
    (applyRule (utf8 "min=" ++ utf8 "9223372036854775808") (utf8 "hi") (utf8 "Name") =
        (if len (utf8 "hi") < 2 ^ 63 - 1 then
          some (utf8 "Name" ++ utf8 " must be at least 9223372036854775807 characters long")
        else none) ∧
      applyRule (utf8 "max=" ++ utf8 "9223372036854775808") (utf8 "hi") (utf8 "Name") =
        (if len (utf8 "hi") > 2 ^ 63 - 1 then
          some (utf8 "Name" ++ utf8 " must be at most 9223372036854775807 characters long")
        else none)) :=
  ⟨(malformed_threshold (utf8 "Name") (utf8 "hi")).1 (utf8 "abc")
      (Or.inr ⟨[], 97, [98, 99], by decide, by simp, by unfold isDigit; decide, by decide⟩),
    (malformed_threshold (utf8 "Name") (utf8 "hi")).2 (utf8 "9223372036854775808")
      (by unfold isDigit; set_option maxRecDepth 100000 in decide)
      (by set_option maxRecDepth 100000 in decide)⟩

/-! ## Signed and saturated values of `strconv.Atoi` -/

theorem Atoi_digits_val (s : GoString) (hne : s ≠ []) (hs : ∀ c ∈ s, isDigit c) :
    (Atoi s).1 = min ((valAcc 0 s : Nat) : Int) (2 ^ 63 - 1) := by
  by_cases hv : valAcc 0 s < 2 ^ 63
  · rw [Atoi_digits s hne hs hv]
    simp only
    omega
  · rw [Atoi_tooLarge s hs (by omega)]
    simp only
    omega

theorem Atoi_neg_digits_val (s : GoString) (hne : s ≠ []) (hs : ∀ c ∈ s, isDigit c) :
    (Atoi (45 :: s)).1 = max (-(2 ^ 63)) (-((valAcc 0 s : Nat) : Int)) := by
  have h45 : ¬ ((45 : Byte) = 43) := by decide
  by_cases hl : (45 :: s).length < 19
  · have hfast := atoiFastLoop_digits s 0 hs
    simp only [Nat.cast_zero] at hfast
    have hlen : ¬ s.length < 1 := by
      cases s with
      | nil => exact absurd rfl hne
      | cons c cs => simp
    have hb := valAcc_lt_pow s 0 hs
    have hp : 10 ^ s.length ≤ 10 ^ 17 :=
      Nat.pow_le_pow_right (by omega) (by simp only [List.length_cons] at hl; omega)
    simp only [Atoi]
    rw [if_pos hl]
    simp only [true_or, if_true, hlen, if_false, hfast]
    omega
  · have hp := parseUintLoop_all_digits s 0 hs (by omega)
    simp only [Atoi]
    rw [if_neg hl]
    simp only [ParseInt, h45, if_false, if_true, ParseUint, hne, hp, intSize]
    by_cases h64 : valAcc 0 s < 2 ^ 64
    · rw [if_pos h64]
      by_cases h63 : 9223372036854775808 < valAcc 0 s
      · simp [h63]
        omega
      · simp [h63, toInt64, negInt64]
        omega
    · rw [if_neg h64]
      simp
      omega
theorem Atoi_fmtInt_clamp (k : Int) : (Atoi (fmtInt k)).1 = clampInt k := by
  by_cases hk : 0 ≤ k
  · obtain ⟨n, rfl⟩ := Int.eq_ofNat_of_zero_le hk
    obtain ⟨a, b, c⟩ := fmtInt_nat n
    rw [Atoi_digits_val _ a b, c]
    simp only [clampInt]
    omega
  · obtain ⟨ds, h1, h2, h3, h4⟩ := natDigits_spec (k.natAbs + 1) k.natAbs [] (by omega)
    have hf : fmtInt k = 45 :: ds := by
      simp only [fmtInt, h1, List.append_nil]
      rw [if_pos (by omega)]
    rw [hf, Atoi_neg_digits_val ds h2 h3, h4]
    simp only [clampInt]
    omega

theorem syntaxErrorSuffix_examples :
    syntaxErrorSuffix (utf8 "abc") ∧ syntaxErrorSuffix [] ∧ syntaxErrorSuffix (utf8 "2 ") := by
  set_option maxRecDepth 100000 in
  refine ⟨?_, Or.inl rfl, ?_⟩
  · exact Or.inr ⟨[], 97, [98, 99], by decide, by simp, by unfold isDigit; decide, by decide⟩
  · exact Or.inr ⟨[50], 32, [], by decide, by unfold isDigit; decide, by unfold isDigit; decide,
      by decide⟩

/-- C11 (counterexample): the suffix `-5` is not a non-negative decimal integer,
yet the threshold of `max=-5` is -5, not 0 and not non-negative: the empty value is
rejected with `Name must be at most -5 characters long`. -/
theorem threshold_counterexample :
    maxThreshold (utf8 "max=-5") = -5 ∧
    minThreshold (utf8 "min=-5") = -5 ∧
    applyRule (utf8 "max=-5") [] (utf8 "Name") =
      some (utf8 "Name must be at most -5 characters long") := by
  set_option maxRecDepth 100000 in
  refine ⟨by decide, by decide, by decide⟩

/-- C11 (amended): the threshold compared and printed by the two length checkers
is the value `strconv.Atoi` returns for the suffix, its error dropped.  It is 0
for every suffix that is not a number (such as `abc`, the empty suffix and `2 `),
and for the decimal text of an integer `k`, with or without a minus sign, it is
`k` brought into the range of `int` (so `-5` gives -5 and a digit string too large
gives `2^63 - 1`). -/
theorem threshold_parsing :
    (∀ rule v name : GoString, validateMinLength rule v name =
      if len v < minThreshold rule then some (errMin name (minThreshold rule)) else none) ∧
    (∀ rule v name : GoString, validateMaxLength rule v name =
      if len v > maxThreshold rule then some (errMax name (maxThreshold rule)) else none) ∧
    (∀ s : GoString, syntaxErrorSuffix s →
      minThreshold (utf8 "min=" ++ s) = 0 ∧ maxThreshold (utf8 "max=" ++ s) = 0) ∧
    (syntaxErrorSuffix (utf8 "abc") ∧ syntaxErrorSuffix [] ∧ syntaxErrorSuffix (utf8 "2 ")) ∧
    (∀ k : Int, minThreshold (utf8 "min=" ++ fmtInt k) = clampInt k ∧
      maxThreshold (utf8 "max=" ++ fmtInt k) = clampInt k) ∧
    (fmtInt (-5) = utf8 "-5" ∧ clampInt (-5) = -5 ∧
      clampInt (2 ^ 63) = 2 ^ 63 - 1) := by
  refine ⟨fun _ _ _ => rfl, fun _ _ _ => rfl, ?_, syntaxErrorSuffix_examples, ?_, ?_⟩
  · intro s hs
    simp only [minThreshold, maxThreshold, TrimPrefix_append, Atoi_syntaxError s hs, and_self]
  · intro k
    simp only [minThreshold, maxThreshold, TrimPrefix_append, Atoi_fmtInt_clamp, and_self]
  · set_option maxRecDepth 100000 in
    refine ⟨by decide, by decide, by decide⟩

theorem threshold_parsing_witness :
    minThreshold (utf8 "min=" ++ utf8 "abc") = 0 ∧ maxThreshold (utf8 "max=" ++ utf8 "abc") = 0 :=
  threshold_parsing.2.2.1 (utf8 "abc") syntaxErrorSuffix_examples.1

/-! ## `strings.Split` and the order of the tokens -/

theorem utf8_comma : utf8 "," = [44] := by decide

theorem splitByte_ne_nil (sep : Byte) (s : GoString) : splitByte sep s ≠ [] := by
  cases s with
  | nil => simp [splitByte]
  | cons c cs =>
    by_cases h : c = sep
    · simp [splitByte, h]
    · cases hs : splitByte sep cs <;> simp [splitByte, h, hs]

theorem splitByte_append_sep (sep : Byte) (a b : GoString) :
    splitByte sep (a ++ sep :: b) = splitByte sep a ++ splitByte sep b := by
  induction a with
  | nil => simp [splitByte]
  | cons c cs ih =>
    by_cases h : c = sep
    · simp [splitByte, h, ih]
    · cases hs : splitByte sep cs with
      | nil => exact absurd hs (splitByte_ne_nil sep cs)
      | cons t ts => simp [splitByte, h, ih, hs]

theorem splitByte_of_not_mem (sep : Byte) (t : GoString) (h : sep ∉ t) :
    splitByte sep t = [t] := by
  induction t with
  | nil => simp [splitByte]
  | cons c cs ih =>
    have hc : c ≠ sep := fun e => h (by simp [e])
    have hcs : sep ∉ cs := fun e => h (List.mem_cons_of_mem _ e)
    simp [splitByte, hc, ih hcs]

theorem splitByte_not_mem (sep : Byte) (s : GoString) : ∀ t ∈ splitByte sep s, sep ∉ t := by
  induction s with
  | nil => simp [splitByte]
  | cons c cs ih =>
    by_cases h : c = sep
    · intro t ht
      simp only [splitByte, h, if_true, List.mem_cons] at ht
      rcases ht with rfl | ht
      · simp
      · exact ih t ht
    · cases hs : splitByte sep cs with
      | nil => exact absurd hs (splitByte_ne_nil sep cs)
      | cons u us =>
        rw [hs] at ih
        intro t ht
        simp only [splitByte, h, if_false, hs, List.mem_cons] at ht
        rcases ht with rfl | ht
        · intro hm
          rcases List.mem_cons.1 hm with e | e
          · exact h e.symm
          · exact ih u (List.mem_cons_self _ _) e
        · exact ih t (List.mem_cons_of_mem _ ht)

theorem joinComma_splitByte (s : GoString) : joinComma (splitByte 44 s) = s := by
  induction s with
  | nil => simp [splitByte, joinComma]
  | cons c cs ih =>
    cases hs : splitByte 44 cs with
    | nil => exact absurd hs (splitByte_ne_nil 44 cs)
    | cons u us =>
      rw [hs] at ih
      by_cases h : c = 44
      · simp only [splitByte, h, if_true, hs, joinComma, List.nil_append, ih]
      · simp only [splitByte, h, if_false, hs]
        cases us with
        | nil =>
          simp only [joinComma] at ih ⊢
          rw [ih]
        | cons w ws =>
          simp only [joinComma, List.cons_append] at ih ⊢
          rw [ih]

theorem length_splitByte (sep : Byte) (s : GoString) :
    (splitByte sep s).length = s.count sep + 1 := by
  induction s with
  | nil => simp [splitByte]
  | cons c cs ih =>
    by_cases h : c = sep
    · simp [splitByte, h, ih]
    · cases hs : splitByte sep cs with
      | nil => exact absurd hs (splitByte_ne_nil sep cs)
      | cons u us =>
        rw [hs] at ih
        have : (c == sep) = false := by simpa using h
        simp only [splitByte, h, if_false, hs, List.length_cons, List.count_cons, this] at ih ⊢
        simpa using ih

theorem Split_append_comma (a b : GoString) :
    Split (a ++ utf8 "," ++ b) = Split a ++ Split b := by
  simp only [Split, utf8_comma, List.append_assoc, List.singleton_append]
  exact splitByte_append_sep 44 a b

theorem Split_token (t : GoString) (h : (44 : Byte) ∉ t) : Split t = [t] :=
  splitByte_of_not_mem 44 t h

theorem applyRule_nil (v n : GoString) : applyRule [] v n = none := by
  have h1 : HasPrefix [] (utf8 "min=") = false := by decide
  have h2 : HasPrefix [] (utf8 "max=") = false := by decide
  have h3 : ([] : GoString) ≠ utf8 "required" := by decide
  have h4 : ([] : GoString) ≠ utf8 "email" := by decide
  simp [applyRule, h1, h2, h3, h4]

theorem applyRules_append (l1 l2 : List GoString) (v n : GoString) :
    applyRules (l1 ++ l2) v n =
      match applyRules l1 v n with
      | some e => some e
      | none => applyRules l2 v n := by
  induction l1 with
  | nil => simp [applyRules]
  | cons t ts ih =>
    cases h : applyRule t v n with
    | none => simp [applyRules, h, ih]
    | some e => simp [applyRules, h]

theorem validate_single_any (n v tag : GoString) :
    validate [⟨n, v, tag⟩] = applyRules (Split tag) v n := by
  by_cases ht : tag = []
  · subst ht
    have : Split [] = [[]] := rfl
    simp [validate, this, applyRules, applyRule_nil]
  · exact validate_single n v tag ht

/-- C12: when the value of a field fails the token `t1` with the error `e1` and the
token `t2` with the error `e2` (tokens have no comma), the tag `t1,t2` gives `e1`
and the tag `t2,t1` gives `e2`.  For the value `a@b`, the tag `min=5,email` gives
the min-length message and the tag `email,min=5` the e-mail message. -/
theorem rule_order_determinism (name v : GoString) :
    (∀ t1 t2 e1 e2 : GoString, (44 : Byte) ∉ t1 → (44 : Byte) ∉ t2 →
      applyRule t1 v name = some e1 → applyRule t2 v name = some e2 →
      validate [⟨name, v, t1 ++ utf8 "," ++ t2⟩] = some e1 ∧
      validate [⟨name, v, t2 ++ utf8 "," ++ t1⟩] = some e2) ∧
    validate [⟨name, utf8 "a@b", utf8 "min=5,email"⟩] =
      some (name ++ utf8 " must be at least 5 characters long") ∧
    validate [⟨name, utf8 "a@b", utf8 "email,min=5"⟩] =
      some (name ++ utf8 " must be a valid email address") := by
  have key : ∀ (w t1 t2 e1 : GoString), (44 : Byte) ∉ t1 → applyRule t1 w name = some e1 →
      validate [⟨name, w, t1 ++ utf8 "," ++ t2⟩] = some e1 := by
    intro w t1 t2 e1 h1 hf1
    rw [validate_single_any, Split_append_comma, Split_token t1 h1, applyRules_append]
    simp [applyRules, hf1]
  have hmin : applyRule (utf8 "min=5") (utf8 "a@b") name =
      some (name ++ utf8 " must be at least 5 characters long") := by
    have h1 : HasPrefix (utf8 "min=5") (utf8 "min=") = true := by decide
    have h2 : (Atoi (TrimPrefix (utf8 "min=5") (utf8 "min="))).1 = 5 := by decide
    have h3 : utf8 " must be at least " ++ fmtInt 5 ++ utf8 " characters long" =
        utf8 " must be at least 5 characters long" := by decide
    have h4 : len (utf8 "a@b") < 5 := by decide
    simp only [applyRule, h1, if_true, validateMinLength, h2, h4, errMin, List.append_assoc]
    rw [← h3, List.append_assoc]
  have hemail : applyRule (utf8 "email") (utf8 "a@b") name =
      some (name ++ utf8 " must be a valid email address") := by
    have h : MatchString (utf8 "a@b") = false := by decide
    simp [applyRule_email, validateEmail, h, errEmail]
  refine ⟨?_, ?_, ?_⟩
  · intro t1 t2 e1 e2 h1 h2 hf1 hf2
    exact ⟨key v t1 t2 e1 h1 hf1, key v t2 t1 e2 h2 hf2⟩
  · have e : utf8 "min=5,email" = utf8 "min=5" ++ utf8 "," ++ utf8 "email" := by decide
    rw [e]
    exact key _ _ _ _ (by decide) hmin
  · have e : utf8 "email,min=5" = utf8 "email" ++ utf8 "," ++ utf8 "min=5" := by decide
    rw [e]
    exact key _ _ _ _ (by decide) hemail

theorem rule_order_determinism_witness :
    validate [⟨utf8 "Email", [], utf8 "required" ++ utf8 "," ++ utf8 "email"⟩] =
      some (utf8 "Email is required") ∧
    validate [⟨utf8 "Email", [], utf8 "email" ++ utf8 "," ++ utf8 "required"⟩] =
      some (utf8 "Email must be a valid email address") :=
  (rule_order_determinism (utf8 "Email") []).1 (utf8 "required") (utf8 "email")
    (utf8 "Email is required") (utf8 "Email must be a valid email address")
    (by decide) (by decide) (by decide) (by decide)

/-! ## Tokens that `applyRule` ignores -/

theorem validate_cons_any (f : Field) (rest : List Field) :
    validate (f :: rest) =
      match applyRules (Split f.tag) f.value f.name with
      | some e => some e
      | none => validate rest := by
  by_cases ht : f.tag = []
  · have : Split [] = [[]] := rfl
    simp [validate, ht, this, applyRules, applyRule_nil]
  · simp [validate, ht]

theorem validate_congr_field (pre post : List Field) (n v tag1 tag2 : GoString)
    (h : applyRules (Split tag1) v n = applyRules (Split tag2) v n) :
    validate (pre ++ ⟨n, v, tag1⟩ :: post) = validate (pre ++ ⟨n, v, tag2⟩ :: post) := by
  induction pre with
  | nil => simp only [List.nil_append, validate_cons_any, h]
  | cons g pre ih => simp only [List.cons_append, validate_cons_any, ih]

theorem applyRule_unknown (u v n : GoString) (hu : isUnknownToken u) :
    applyRule u v n = none := by
  obtain ⟨h1, h2, h3, h4⟩ := hu
  simp [applyRule, h1, h2, h3, h4]

theorem applyRules_insert_unknown (l1 l2 : List GoString) (u v n : GoString)
    (hu : isUnknownToken u) :
    applyRules (l1 ++ u :: l2) v n = applyRules (l1 ++ l2) v n := by
  rw [applyRules_append, applyRules_append]
  simp only [applyRules, applyRule_unknown u v n hu]

/-- C13: a token that starts neither with `min=` nor with `max=` and is neither
`required` nor `email` gives no error on any value.  Hence adding such a token
without a comma to the tag of a field of any record (between two parts of the tag,
in front, at the end, or as the whole tag of an untagged field) leaves the result
of `validate` unchanged.  In the tag `min=2, max=32` the token ` max=32` is such a
token, so a value longer than 32 bytes is valid. -/
theorem unknown_tokens_ignored (u : GoString) (hu : isUnknownToken u) :
    (∀ v n : GoString, applyRule u v n = none) ∧
    ((44 : Byte) ∉ u → ∀ (pre post : List Field) (name v a b : GoString),
      validate (pre ++ ⟨name, v, a ++ utf8 "," ++ u ++ utf8 "," ++ b⟩ :: post) =
        validate (pre ++ ⟨name, v, a ++ utf8 "," ++ b⟩ :: post) ∧
      validate (pre ++ ⟨name, v, u ++ utf8 "," ++ a⟩ :: post) =
        validate (pre ++ ⟨name, v, a⟩ :: post) ∧
      validate (pre ++ ⟨name, v, a ++ utf8 "," ++ u⟩ :: post) =
        validate (pre ++ ⟨name, v, a⟩ :: post) ∧
      validate (pre ++ ⟨name, v, u⟩ :: post) = validate (pre ++ ⟨name, v, []⟩ :: post)) ∧
    (isUnknownToken (utf8 " max=32") ∧
      Split (utf8 "min=2, max=32") = [utf8 "min=2", utf8 " max=32"] ∧
      ∀ name v : GoString, len v > 32 → validate [⟨name, v, utf8 "min=2, max=32"⟩] = none) := by
  refine ⟨fun v n => applyRule_unknown u v n hu, ?_, ?_⟩
  · intro hc pre post name v a b
    have hsu : Split u = [u] := Split_token u hc
    refine ⟨?_, ?_, ?_, ?_⟩
    · apply validate_congr_field
      rw [Split_append_comma, Split_append_comma, Split_append_comma, hsu, List.append_assoc]
      exact applyRules_insert_unknown (Split a) (Split b) u v name hu
    · apply validate_congr_field
      rw [Split_append_comma, hsu]
      exact applyRules_insert_unknown [] (Split a) u v name hu
    · apply validate_congr_field
      rw [Split_append_comma, hsu]
      have := applyRules_insert_unknown (Split a) [] u v name hu
      simpa using this
    · apply validate_congr_field
      rw [hsu]
      have : Split [] = [[]] := rfl
      simp [this, applyRules, applyRule_unknown u v name hu, applyRule_nil]
  · have hun : isUnknownToken (utf8 " max=32") := by
      refine ⟨by decide, by decide, by decide, by decide⟩
    refine ⟨hun, by decide, ?_⟩
    intro name v hv
    have hs : Split (utf8 "min=2, max=32") = [utf8 "min=2", utf8 " max=32"] := by decide
    have h1 : HasPrefix (utf8 "min=2") (utf8 "min=") = true := by decide
    have h2 : (Atoi (TrimPrefix (utf8 "min=2") (utf8 "min="))).1 = 2 := by decide
    have h3 : ¬ len v < 2 := by omega
    have hmin : applyRule (utf8 "min=2") v name = none := by
      simp only [applyRule, h1, if_true, validateMinLength, h2, h3, if_false]
    rw [validate_single_any, hs]
    simp only [applyRules, hmin, applyRule_unknown _ v name hun]

theorem unknown_tokens_ignored_witness :
    validate ([] ++ ⟨utf8 "Name", utf8 "A", utf8 "min=2" ++ utf8 "," ++ utf8 "size=3" ++
        utf8 "," ++ utf8 "max=32"⟩ :: []) =
      validate ([] ++ ⟨utf8 "Name", utf8 "A", utf8 "min=2" ++ utf8 "," ++ utf8 "max=32"⟩ :: []) :=
  ((unknown_tokens_ignored (utf8 "size=3") ⟨by decide, by decide, by decide, by decide⟩).2.1
    (by decide) [] [] (utf8 "Name") (utf8 "A") (utf8 "min=2") (utf8 "max=32")).1

/-! ## The tokenizer, and tags as sequences of rules -/

/-- C14 (counterexample): splitting the tags `min=2,,max=32`, `,required` and
`required,` yields an empty token each time. -/
theorem tokenizer_counterexample :
    Split (utf8 "min=2,,max=32") = [utf8 "min=2", [], utf8 "max=32"] ∧
    Split (utf8 ",required") = [[], utf8 "required"] ∧
    Split (utf8 "required,") = [utf8 "required", []] ∧
    ¬ (∀ t ∈ Split (utf8 "min=2,,max=32"), t ≠ []) := by
  refine ⟨by decide, by decide, by decide, by decide⟩

/-- C14 (amended): for every tag, the tokens are the pieces of the tag between its
commas, in order and untrimmed: no token has a comma, joining them with commas
gives the tag back, and there is one token more than there are commas.  A piece
can be empty (two commas in a row, a comma in front or at the end); the empty token
is a rule that gives no error. -/
theorem tokenizer_output (tag : GoString) :
    joinComma (Split tag) = tag ∧
    (∀ t ∈ Split tag, (44 : Byte) ∉ t) ∧
    (Split tag).length = tag.count 44 + 1 ∧
    (∀ v n : GoString, applyRule [] v n = none) :=
  ⟨joinComma_splitByte tag, splitByte_not_mem 44 tag, length_splitByte 44 tag, applyRule_nil⟩

/-- C16: for every field and all tags `t1` and `t2`, validating with the tag
`t1,t2` gives the error of validating with `t1` when there is one, and otherwise
the result of validating with `t2`. -/
theorem tag_concat_sequential (name v t1 t2 : GoString) :
    (∀ e, validate [⟨name, v, t1⟩] = some e →
      validate [⟨name, v, t1 ++ utf8 "," ++ t2⟩] = some e) ∧
    (validate [⟨name, v, t1⟩] = none →
      validate [⟨name, v, t1 ++ utf8 "," ++ t2⟩] = validate [⟨name, v, t2⟩]) := by
  simp only [validate_single_any, Split_append_comma, applyRules_append]
  constructor
  · intro e h
    simp [h]
  · intro h
    simp [h]

theorem tag_concat_sequential_witness :
    validate [⟨utf8 "Name", utf8 "A", utf8 "min=2" ++ utf8 "," ++ utf8 "max=32"⟩] =
      some (utf8 "Name must be at least 2 characters long") :=
  (tag_concat_sequential (utf8 "Name") (utf8 "A") (utf8 "min=2") (utf8 "max=32")).1 _
    (by decide)

/-- C17: when the tag `tag2` has the same tokens as the tag `tag1`, in another order
or with repetitions, a field is valid with `tag2` exactly when it is valid with
`tag1`; the message can differ, as for the value `a@b` with the tags `min=5,email`
and `email,min=5`. -/
theorem pass_fail_order_independent (name v tag1 tag2 : GoString) :
    ((∀ t, t ∈ Split tag2 ↔ t ∈ Split tag1) →
      (validate [⟨name, v, tag2⟩] = none ↔ validate [⟨name, v, tag1⟩] = none)) ∧
    ((Split tag2).Perm (Split tag1) →
      (validate [⟨name, v, tag2⟩] = none ↔ validate [⟨name, v, tag1⟩] = none)) ∧
    (∀ a t b : GoString, (44 : Byte) ∉ t →
      (validate [⟨name, v, a ++ utf8 "," ++ t ++ utf8 "," ++ t ++ utf8 "," ++ b⟩] = none ↔
        validate [⟨name, v, a ++ utf8 "," ++ t ++ utf8 "," ++ b⟩] = none)) ∧
    validate [⟨name, utf8 "a@b", utf8 "min=5,email"⟩] ≠
      validate [⟨name, utf8 "a@b", utf8 "email,min=5"⟩] := by
  have key : ∀ x y : GoString, (∀ t, t ∈ Split y ↔ t ∈ Split x) →
      (validate [⟨name, v, y⟩] = none ↔ validate [⟨name, v, x⟩] = none) := by
    intro x y h
    simp only [validate_single_any, applyRules_eq_none_iff]
    constructor
    · intro hy t ht
      exact hy t ((h t).2 ht)
    · intro hx t ht
      exact hx t ((h t).1 ht)
  refine ⟨key tag1 tag2, fun hp => key tag1 tag2 (fun t => hp.mem_iff), ?_, ?_⟩
  · intro a t b ht
    apply key
    intro x
    simp only [Split_append_comma, Split_token t ht, List.mem_append, List.mem_singleton]
    tauto
  · have h1 : Split (utf8 "min=5,email") = [utf8 "min=5", utf8 "email"] := by decide
    have h2 : Split (utf8 "email,min=5") = [utf8 "email", utf8 "min=5"] := by decide
    have hmin : applyRule (utf8 "min=5") (utf8 "a@b") name =
        some (name ++ utf8 " must be at least 5 characters long") := by
      have h1 : HasPrefix (utf8 "min=5") (utf8 "min=") = true := by decide
      have h2 : (Atoi (TrimPrefix (utf8 "min=5") (utf8 "min="))).1 = 5 := by decide
      have h3 : utf8 " must be at least " ++ fmtInt 5 ++ utf8 " characters long" =
          utf8 " must be at least 5 characters long" := by decide
      have h4 : len (utf8 "a@b") < 5 := by decide
      simp only [applyRule, h1, if_true, validateMinLength, h2, h4, errMin, List.append_assoc]
      rw [← h3, List.append_assoc]
    have hemail : applyRule (utf8 "email") (utf8 "a@b") name =
        some (name ++ utf8 " must be a valid email address") := by
      have h : MatchString (utf8 "a@b") = false := by decide
      simp [applyRule_email, validateEmail, h, errEmail]
    have hne : utf8 " must be at least 5 characters long" ≠
        utf8 " must be a valid email address" := by decide
    rw [validate_single_any, validate_single_any, h1, h2]
    simp only [applyRules, hmin, hemail]
    intro h
    exact hne (List.append_cancel_left (Option.some.inj h))

theorem pass_fail_order_independent_witness :
    validate [⟨utf8 "Email", utf8 "a@b", utf8 "email,min=5"⟩] = none ↔
      validate [⟨utf8 "Email", utf8 "a@b", utf8 "min=5,email"⟩] = none :=
  (pass_fail_order_independent (utf8 "Email") (utf8 "a@b") (utf8 "min=5,email")
    (utf8 "email,min=5")).1 (by
      intro t
      have h1 : Split (utf8 "min=5,email") = [utf8 "min=5", utf8 "email"] := by decide
      have h2 : Split (utf8 "email,min=5") = [utf8 "email", utf8 "min=5"] := by decide
      rw [h1, h2]
      simp only [List.mem_cons, List.mem_singleton, List.not_mem_nil, or_false]
      tauto)

/-! ## Lengths are counted in bytes -/

/-- C15: the length checkers count bytes.  The value `é` is one character and two
bytes: `max=1` rejects it as longer than 1 and `min=2` accepts it.  On the schema
`User`, a name of 17 characters `é` (34 bytes) is rejected as longer than 32. -/
theorem length_counts_bytes :
    "é".length = 1 ∧ len (utf8 "é") = 2 ∧
    applyRule (utf8 "max=1") (utf8 "é") (utf8 "Name") =
      some (utf8 "Name must be at most 1 characters long") ∧
    applyRule (utf8 "min=2") (utf8 "é") (utf8 "Name") = none ∧
    "ééééééééééééééééé".length = 17 ∧
    validate (User (utf8 "ééééééééééééééééé") (utf8 "alice@example.com")) =
      some (utf8 "Name must be at most 32 characters long") := by
  set_option maxRecDepth 100000 in
  refine ⟨by decide, by decide, by decide, by decide, by decide, by decide⟩

/-! ## Order of the thresholds -/

theorem validateMinLength_fmtInt (k : Int) (v name : GoString) :
    applyRule (utf8 "min=" ++ fmtInt k) v name =
      if len v < clampInt k then some (errMin name (clampInt k)) else none := by
  rw [applyRule_min]
  simp only [validateMinLength, TrimPrefix_append, Atoi_fmtInt_clamp]

theorem validateMaxLength_fmtInt (k : Int) (v name : GoString) :
    applyRule (utf8 "max=" ++ fmtInt k) v name =
      if len v > clampInt k then some (errMax name (clampInt k)) else none := by
  rw [applyRule_max]
  simp only [validateMaxLength, TrimPrefix_append, Atoi_fmtInt_clamp]

theorem clampInt_mono (m n : Int) (h : m ≤ n) : clampInt m ≤ clampInt n := by
  simp only [clampInt]
  omega

/-- C18: for all integers `m <= n` written in decimal and every value, a value
that passes `min=n` passes `min=m`, and a value that passes `max=m` passes
`max=n`. -/
theorem length_rules_monotone (m n : Int) (h : m ≤ n) (v name : GoString) :
    (applyRule (utf8 "min=" ++ fmtInt n) v name = none →
      applyRule (utf8 "min=" ++ fmtInt m) v name = none) ∧
    (applyRule (utf8 "max=" ++ fmtInt m) v name = none →
      applyRule (utf8 "max=" ++ fmtInt n) v name = none) := by
  have hc := clampInt_mono m n h
  simp only [validateMinLength_fmtInt, validateMaxLength_fmtInt]
  constructor
  · intro h1
    by_cases hn : len v < clampInt n
    · simp [hn] at h1
    · rw [if_neg (by omega)]
  · intro h1
    by_cases hm : len v > clampInt m
    · simp [hm] at h1
    · rw [if_neg (by omega)]

theorem length_rules_monotone_witness :
    applyRule (utf8 "min=" ++ fmtInt 2) (utf8 "Alice") (utf8 "Name") = none ∧
    applyRule (utf8 "max=" ++ fmtInt 7) (utf8 "Alice") (utf8 "Name") = none :=
  ⟨(length_rules_monotone 2 5 (by decide) (utf8 "Alice") (utf8 "Name")).1 (by decide),
    (length_rules_monotone 5 7 (by decide) (utf8 "Alice") (utf8 "Name")).2 (by decide)⟩

/-! ## A window that no length satisfies -/

theorem comma_not_mem_digits (p : GoString) (k : Int) (hk : 0 ≤ k) (hp : (44 : Byte) ∉ p) :
    (44 : Byte) ∉ p ++ fmtInt k := by
  obtain ⟨n, rfl⟩ := Int.eq_ofNat_of_zero_le hk
  obtain ⟨-, hd, -⟩ := fmtInt_nat n
  intro hm
  rcases List.mem_append.1 hm with h | h
  · exact hp h
  · have := hd 44 h
    unfold isDigit at this
    have e : ((44 : Byte)).val = 44 := rfl
    omega

theorem validate_min_max_fmtInt (x y : Int) (hx : 0 ≤ x) (hy : 0 ≤ y) (name v : GoString) :
    validate [⟨name, v, utf8 "min=" ++ fmtInt x ++ utf8 "," ++ (utf8 "max=" ++ fmtInt y)⟩] =
      if len v < clampInt x then some (errMin name (clampInt x))
      else if len v > clampInt y then some (errMax name (clampInt y)) else none := by
  rw [validate_single_any, Split_append_comma,
    Split_token _ (comma_not_mem_digits _ x hx (by decide)),
    Split_token _ (comma_not_mem_digits _ y hy (by decide))]
  simp only [List.singleton_append, applyRules, validateMinLength_fmtInt,
    validateMaxLength_fmtInt]
  by_cases h1 : len v < clampInt x
  · simp only [h1, if_true]
  · by_cases h2 : len v > clampInt y
    · simp only [h1, if_false, h2, if_true]
    · simp only [h1, if_false, h2]

/-- C19: for all integers `a > b >= 0` written in decimal and every value `v`
shorter than `2^63 - 1` bytes, a field tagged `min=a,max=b` is rejected: with the
min-length message when `len(v) < a` and with the max-length message otherwise.  The
number printed in the min-length message is `a` brought into the range of `int`
(`a` itself when `a < 2^63`, else `2^63 - 1`).  When `a` fits an `int` the bound on
`v` is not needed.  No value passes `min=5,max=3`, and `min=9223372036854775808,max=3`
gives the min-length message with 9223372036854775807. -/
theorem unsatisfiable_window (a b : Int) (hb : 0 ≤ b) (hab : b < a) (name v : GoString) :
    (len v < 2 ^ 63 - 1 →
      validate [⟨name, v, utf8 "min=" ++ fmtInt a ++ utf8 "," ++ (utf8 "max=" ++ fmtInt b)⟩] =
        if len v < a then
          some (name ++ utf8 " must be at least " ++ fmtInt (clampInt a) ++
            utf8 " characters long")
        else some (name ++ utf8 " must be at most " ++ fmtInt b ++ utf8 " characters long")) ∧
    (a < 2 ^ 63 →
      validate [⟨name, v, utf8 "min=" ++ fmtInt a ++ utf8 "," ++ (utf8 "max=" ++ fmtInt b)⟩] =
        if len v < a then
          some (name ++ utf8 " must be at least " ++ fmtInt a ++ utf8 " characters long")
        else some (name ++ utf8 " must be at most " ++ fmtInt b ++ utf8 " characters long")) ∧
    validate [⟨name, v, utf8 "min=5,max=3"⟩] ≠ none ∧
    (len v < 2 ^ 63 - 1 →
      validate [⟨name, v, utf8 "min=9223372036854775808,max=3"⟩] =
        some (name ++ utf8 " must be at least 9223372036854775807 characters long")) := by
  have ha : 0 ≤ a := by omega
  have big : ∀ x y : Int, 0 ≤ y → y < x → len v < 2 ^ 63 - 1 →
      validate [⟨name, v, utf8 "min=" ++ fmtInt x ++ utf8 "," ++ (utf8 "max=" ++ fmtInt y)⟩] =
        if len v < x then
          some (name ++ utf8 " must be at least " ++ fmtInt (clampInt x) ++
            utf8 " characters long")
        else some (name ++ utf8 " must be at most " ++ fmtInt y ++ utf8 " characters long") := by
    intro x y hy hxy hlen
    rw [validate_min_max_fmtInt x y (by omega) hy]
    by_cases h1 : len v < x
    · have h2 : len v < clampInt x := by
        simp only [clampInt]
        omega
      rw [if_pos h1, if_pos h2, errMin]
    · have h2 : ¬ len v < clampInt x := by
        simp only [clampInt]
        omega
      have cy : clampInt y = y := by
        simp only [clampInt]
        omega
      have h3 : len v > clampInt y := by
        rw [cy]
        omega
      rw [if_neg h1, if_neg h2, if_pos h3, errMax, cy]
  refine ⟨big a b hb hab, ?_, ?_, ?_⟩
  · intro ha63
    rw [validate_min_max_fmtInt a b ha hb]
    have ca : clampInt a = a := by simp only [clampInt]; omega
    have cb : clampInt b = b := by simp only [clampInt]; omega
    rw [ca, cb]
    by_cases h1 : len v < a
    · simp only [h1, if_true, errMin]
    · have h2 : len v > b := by omega
      simp only [h1, if_false, h2, if_true, errMax]
  · have e : utf8 "min=5,max=3" =
        utf8 "min=" ++ fmtInt 5 ++ utf8 "," ++ (utf8 "max=" ++ fmtInt 3) := by decide
    rw [e, validate_min_max_fmtInt 5 3 (by omega) (by omega)]
    have c5 : clampInt 5 = 5 := by decide
    have c3 : clampInt 3 = 3 := by decide
    rw [c5, c3]
    by_cases h1 : len v < 5
    · rw [if_pos h1]
      simp
    · have h2 : len v > 3 := by omega
      rw [if_neg h1, if_pos h2]
      simp
  · intro hlen
    have e : utf8 "min=9223372036854775808,max=3" =
        utf8 "min=" ++ fmtInt (2 ^ 63) ++ utf8 "," ++ (utf8 "max=" ++ fmtInt 3) := by
      set_option maxRecDepth 100000 in decide
    have hm : utf8 " must be at least " ++ fmtInt (clampInt (2 ^ 63)) ++
        utf8 " characters long" =
        utf8 " must be at least 9223372036854775807 characters long" := by
      set_option maxRecDepth 100000 in decide
    rw [e, big (2 ^ 63) 3 (by omega) (by omega) hlen, if_pos (by omega), ← hm]
    simp only [List.append_assoc]

theorem unsatisfiable_window_witness :
    validate [⟨utf8 "Name", utf8 "Alice",
        utf8 "min=" ++ fmtInt (2 ^ 63) ++ utf8 "," ++ (utf8 "max=" ++ fmtInt 3)⟩] =
      (if len (utf8 "Alice") < 2 ^ 63 then
        some (utf8 "Name" ++ utf8 " must be at least " ++ fmtInt (clampInt (2 ^ 63)) ++
          utf8 " characters long")
      else some (utf8 "Name" ++ utf8 " must be at most " ++ fmtInt 3 ++
        utf8 " characters long")) ∧
    validate [⟨utf8 "Name", utf8 "Alice",
        utf8 "min=" ++ fmtInt 5 ++ utf8 "," ++ (utf8 "max=" ++ fmtInt 3)⟩] =
      (if len (utf8 "Alice") < 5 then
        some (utf8 "Name" ++ utf8 " must be at least " ++ fmtInt 5 ++ utf8 " characters long")
      else some (utf8 "Name" ++ utf8 " must be at most " ++ fmtInt 3 ++
        utf8 " characters long")) :=
  ⟨(unsatisfiable_window (2 ^ 63) 3 (by decide) (by decide) (utf8 "Name") (utf8 "Alice")).1
      (by decide),
    (unsatisfiable_window 5 3 (by decide) (by decide) (utf8 "Name") (utf8 "Alice")).2.1
      (by decide)⟩

/-! ## Shape of the accepted addresses -/

theorem isLowerAlpha_val (c : Byte) (h : isLowerAlpha c) : c ≠ 64 ∧ c.val < 128 := by
  unfold isLowerAlpha at h
  refine ⟨?_, by omega⟩
  rintro rfl
  have e : ((64 : Byte)).val = 64 := rfl
  omega

theorem isLocalChar_val (c : Byte) (h : isLocalChar c) : c ≠ 64 ∧ c.val < 128 := by
  rcases h with h | h | h | h | h | h | h
  · exact isLowerAlpha_val c h
  · unfold isDigit at h
    refine ⟨?_, by omega⟩
    rintro rfl
    have e : ((64 : Byte)).val = 64 := rfl
    omega
  all_goals
    subst h
    decide

theorem isDomainChar_val (c : Byte) (h : isDomainChar c) : c ≠ 64 ∧ c.val < 128 := by
  rcases h with h | h | h | h
  · exact isLowerAlpha_val c h
  · unfold isDigit at h
    refine ⟨?_, by omega⟩
    rintro rfl
    have e : ((64 : Byte)).val = 64 := rfl
    omega
  all_goals
    subst h
    decide

theorem emailShape_facts (v : GoString) (h : emailShape v) :
    v.count 64 = 1 ∧ 6 ≤ len v ∧ (∀ c ∈ v, c.val < 128) ∧ v ≠ [] := by
  obtain ⟨loc, domain, tld, rfl, h1, h2, h3, h4, h5, h6⟩ := h
  have hat : utf8 "@" = [64] := by decide
  have hdot : utf8 "." = [46] := by decide
  have c1 : loc.count 64 = 0 :=
    List.count_eq_zero.2 fun hm => (isLocalChar_val 64 (h2 64 hm)).1 rfl
  have c2 : domain.count 64 = 0 :=
    List.count_eq_zero.2 fun hm => (isDomainChar_val 64 (h4 64 hm)).1 rfl
  have c3 : tld.count 64 = 0 :=
    List.count_eq_zero.2 fun hm => (isLowerAlpha_val 64 (h6 64 hm)).1 rfl
  have l1 : 0 < loc.length := List.length_pos.2 h1
  have l2 : 0 < domain.length := List.length_pos.2 h3
  rw [hat, hdot]
  refine ⟨?_, ?_, ?_, ?_⟩
  · simp only [List.count_append, c1, c2, c3]
    decide
  · simp only [len, List.length_append, List.length_singleton]
    omega
  · intro c hc
    simp only [List.mem_append, List.mem_singleton] at hc
    rcases hc with (((hc | hc) | hc) | hc) | hc
    · exact (isLocalChar_val c (h2 c hc)).2
    · subst hc; decide
    · exact (isDomainChar_val c (h4 c hc)).2
    · subst hc; decide
    · exact (isLowerAlpha_val c (h6 c hc)).2
  · cases loc with
    | nil => exact absurd rfl h1
    | cons a l => simp

theorem applyRule_email_none_iff (name v : GoString) :
    applyRule (utf8 "email") v name = none ↔ emailShape v := by
  rw [applyRule_email, ← MatchString_iff]
  cases h : MatchString v <;> simp [validateEmail, h]

/-- C20: every value the e-mail rule accepts has exactly one `@`, at least 6
bytes and only ASCII bytes, and passes `required`.  With the tag
`required,email` the message `is required` is reported for the empty value only,
every other value that is not accepted gets the e-mail message, and the field is
valid exactly when the e-mail rule accepts the value. -/
theorem accepted_email_shape (name v : GoString) :
    (applyRule (utf8 "email") v name = none →
      v.count 64 = 1 ∧ 6 ≤ len v ∧ (∀ c ∈ v, c.val < 128) ∧
        applyRule (utf8 "required") v name = none) ∧
    (validate [⟨name, v, utf8 "required,email"⟩] = some (name ++ utf8 " is required") ↔
      v = []) ∧
    (v ≠ [] → applyRule (utf8 "email") v name ≠ none →
      validate [⟨name, v, utf8 "required,email"⟩] =
        some (name ++ utf8 " must be a valid email address")) ∧
    (validate [⟨name, v, utf8 "required,email"⟩] = none ↔
      applyRule (utf8 "email") v name = none) := by
  have hs : Split (utf8 "required,email") = [utf8 "required", utf8 "email"] := by decide
  have hne : utf8 " must be a valid email address" ≠ utf8 " is required" := by decide
  have hv : validate [⟨name, v, utf8 "required,email"⟩] =
      if v = [] then some (name ++ utf8 " is required")
      else if MatchString v then none
      else some (name ++ utf8 " must be a valid email address") := by
    rw [validate_single_any, hs]
    simp only [applyRules, applyRule_required, applyRule_email, validateRequired, validateEmail,
      errRequired, errEmail]
    by_cases h1 : v = []
    · simp [h1]
    · cases h2 : MatchString v <;> simp [h1, h2]
  have hem : applyRule (utf8 "email") v name = none ↔ MatchString v = true := by
    rw [applyRule_email_none_iff, MatchString_iff]
  refine ⟨?_, ?_, ?_, ?_⟩
  · intro h
    obtain ⟨a, b, c, d⟩ := emailShape_facts v ((applyRule_email_none_iff name v).1 h)
    refine ⟨a, b, c, ?_⟩
    simp [applyRule_required, validateRequired, d]
  · rw [hv]
    by_cases h1 : v = []
    · simp [h1]
    · cases h2 : MatchString v
      · simp [h1, hne]
      · simp [h1]
  · intro h1 h2
    have h3 : MatchString v = false := by
      cases h : MatchString v
      · rfl
      · exact absurd (hem.2 h) h2
    rw [hv]
    simp [h1, h3]
  · rw [hv, hem]
    by_cases h1 : v = []
    · subst h1
      have : MatchString [] = false := by decide
      simp [this]
    · cases h2 : MatchString v <;> simp [h1]

theorem accepted_email_shape_witness :
    (utf8 "alice@example.com").count 64 = 1 ∧ 6 ≤ len (utf8 "alice@example.com") ∧
      (∀ c ∈ utf8 "alice@example.com", c.val < 128) ∧
      applyRule (utf8 "required") (utf8 "alice@example.com") (utf8 "Email") = none :=
  (accepted_email_shape (utf8 "Email") (utf8 "alice@example.com")).1 (by decide)

end StructTags
